import Mathlib

/-!
Verification of the Go rules engine in `src/services/goLogic.ts` of QiToGo.

The TypeScript module is shallowly embedded: boards are lists of rows of
optional stones (JS `null` becomes `none`), the BFS flood fills are written
with an explicit fuel argument that is always large enough (the JS `while`
loop terminates because each stone is visited at most once; the fuel
`size * size` dominates the number of loop iterations), and the JS
`Set<string>` of `"x,y"` keys is modelled by a `Finset Point` (the string
encoding of a pair of naturals is injective, so the set of keys and the set
of points are in bijection).  `attemptMove` takes integer coordinates and
returns in the `Except` monad: `Except.error ()` models the `TypeError`
thrown by `board[y][x]` when `board[y]` is `undefined`.
-/

namespace QiToGo


/-- Stone colours, from `types.ts` (`Player = 'black' | 'white'`). -/
inductive Player where
  | black : Player
  | white : Player
deriving DecidableEq, Repr

/-- The opponent of a player (`player === 'black' ? 'white' : 'black'`). -/
def Player.opp : Player → Player
  | Player.black => Player.white
  | Player.white => Player.black

/-- Integer coordinate pair, from `types.ts` (`Point`). -/
structure Point where
  x : Nat
  y : Nat
deriving DecidableEq, Repr

/-- A board is a list of rows; a cell holds `none` (JS `null`) or a stone.
From `types.ts` (`BoardState = (Player | null)[][]`). -/
abbrev BoardState := List (List (Option Player))

/-- `KOMI` from `constants.ts`. -/
def KOMI : ℚ := 6.5

/-- The in-range read `board[y][x]`; out-of-range reads collapse to `none`.
(The genuinely JS-faithful two-level read, which distinguishes `undefined`
from `null` and can throw, is `jsRead` below; every call site of this
function in the engine only reads in-range cells.) -/
def cellAt (b : BoardState) (x y : Nat) : Option Player :=
  ((b[y]?).bind (fun row => row[x]?)).join

/-- The in-place write `board[y][x] = v`, value-semantically. Writing out of
range is a no-op (never happens in the engine). -/
def setCell (b : BoardState) (x y : Nat) (v : Option Player) : BoardState :=
  b.set y ((b.getD y []).set x v)

/-- `isValidPoint` from goLogic.ts: `x >= 0 && x < size && y >= 0 && y < size`
with `size = board.length`; coordinates are JS numbers, modelled as `Int`. -/
def isValidPoint (b : BoardState) (x y : Int) : Bool :=
  decide (0 ≤ x) && decide (x < (b.length : Int)) &&
  decide (0 ≤ y) && decide (y < (b.length : Int))

/-- `getNeighbors` from goLogic.ts: the four orthogonal neighbours in the
order right, left, down, up, clipped to the board. -/
def getNeighbors (b : BoardState) (x y : Nat) : List Point :=
  let cand : List (Int × Int) :=
    [((x : Int) + 1, (y : Int)), ((x : Int) - 1, (y : Int)),
     ((x : Int), (y : Int) + 1), ((x : Int), (y : Int) - 1)]
  (cand.filter (fun c => isValidPoint b c.1 c.2)).map
    (fun c => ⟨c.1.toNat, c.2.toNat⟩)

/-- `initializeBoard` from goLogic.ts: an empty `size × size` grid. -/
def initializeBoard (size : Nat) : BoardState :=
  List.replicate size (List.replicate size none)

/-- `cloneBoard` from goLogic.ts; deep copies are the identity under value
semantics. -/
def cloneBoard (b : BoardState) : BoardState := b

/-! ### Specification-side notions (used to state the claims) -/

/-- A point is on the `N×N` board, `N = b.length`. -/
def inRange (b : BoardState) (p : Point) : Prop :=
  p.x < b.length ∧ p.y < b.length

instance (b : BoardState) (p : Point) : Decidable (inRange b p) := by
  unfold inRange; infer_instance

/-- Orthogonal adjacency of two points. -/
def Adj (p q : Point) : Prop :=
  (q.x = p.x + 1 ∧ q.y = p.y) ∨ (q.x + 1 = p.x ∧ q.y = p.y) ∨
  (q.x = p.x ∧ q.y = p.y + 1) ∨ (q.x = p.x ∧ q.y + 1 = p.y)

instance (p q : Point) : Decidable (Adj p q) := by
  unfold Adj; infer_instance

/-- All points of the board, as a finite set. -/
def allPos (b : BoardState) : Finset Point :=
  ((Finset.range b.length) ×ˢ (Finset.range b.length)).image
    (fun q => ⟨q.1, q.2⟩)

/-- The board is a square grid: every row has length `b.length`. -/
def IsSquare (b : BoardState) : Prop :=
  ∀ row ∈ b, row.length = b.length

instance (b : BoardState) : Decidable (IsSquare b) := by
  unfold IsSquare; infer_instance

/-! ### Reachability (connected groups), specification-side -/

/-- One step of same-colour connectivity: `t` is an in-range neighbour of
`s` holding a stone of colour `c`. -/
def stepOn (b : BoardState) (c : Player) (s t : Point) : Prop :=
  Adj s t ∧ inRange b t ∧ cellAt b t.x t.y = some c

/-- `reaches b c s t`: `t` belongs to the orthogonally connected set of
colour-`c` stones grown from `s`. -/
def reaches (b : BoardState) (c : Player) : Point → Point → Prop :=
  Relation.ReflTransGen (stepOn b c)

/-! ### `getGroup`: the BFS flood fill of goLogic.ts

The JS loop mutates `stones`, `liberties` (a `Set` of `"x,y"` strings,
modelled by a `Finset Point`), `visited` and `queue`.  The loop body is
`gStep` folded over the neighbours of the dequeued point; the `while` loop
itself is `getGroupAux`, recursing on a fuel argument.  Each iteration
dequeues a point that was enqueued exactly once (guarded by `visited`), and
at most `size * size` points are ever enqueued, so fuel `size * size` makes
`getGroupAux` compute the exact fixed point of the JS loop. -/

/-- Result of `getGroup`: member stones and liberty set. -/
structure GroupResult where
  stones : List Point
  liberties : Finset Point
deriving DecidableEq

/-- The body of the neighbour loop inside `getGroup`'s `while` loop:
an empty neighbour joins the liberty set; an unvisited same-colour
neighbour is marked visited and enqueued. `acc` is (queue, visited,
liberties). -/
def gStep (board : BoardState) (color : Player)
    (acc : List Point × Finset Point × Finset Point) (n : Point) :
    List Point × Finset Point × Finset Point :=
  match cellAt board n.x n.y with
  | none => (acc.1, acc.2.1, insert n acc.2.2)
  | some c =>
    if c = color ∧ n ∉ acc.2.1 then (acc.1 ++ [n], insert n acc.2.1, acc.2.2)
    else acc

/-- The `while (queue.length > 0)` loop of `getGroup`: dequeue `current`,
append it to `stones`, then run the neighbour loop. -/
def getGroupAux (board : BoardState) (color : Player) :
    Nat → List Point → Finset Point → List Point → Finset Point →
    List Point × Finset Point
  | 0, _, _, stones, libs => (stones, libs)
  | _ + 1, [], _, stones, libs => (stones, libs)
  | fuel + 1, current :: rest, visited, stones, libs =>
    let acc := (getNeighbors board current.x current.y).foldl
      (gStep board color) (rest, visited, libs)
    getGroupAux board color fuel acc.1 acc.2.1 (stones ++ [current]) acc.2.2

/-- `getGroup` from goLogic.ts: empty seed gives the empty group, otherwise
BFS from the seed over same-colour stones. -/
def getGroup (board : BoardState) (x y : Nat) : GroupResult :=
  match cellAt board x y with
  | none => ⟨[], ∅⟩
  | some color =>
    let r := getGroupAux board color (board.length * board.length)
      [⟨x, y⟩] {⟨x, y⟩} [] ∅
    ⟨r.1, r.2⟩

/-! ### `attemptMove` -/

/-- `MoveResult` from types.ts; the optional fields are `none` when the JS
object omits them. -/
structure MoveResult where
  valid : Bool
  newBoard : Option BoardState
  capturedCount : Option Nat
  message : Option String
deriving DecidableEq

/-- One step of the capture loop of `attemptMove`: if the neighbour holds an
opponent stone whose group (computed on the current speculative board) has
no liberties, set every stone of that group to `null`, incrementing the
captured count once per stone.  `acc` is (current board, captured count). -/
def cStep (opponent : Player) (acc : BoardState × Nat) (n : Point) :
    BoardState × Nat :=
  if cellAt acc.1 n.x n.y = some opponent then
    let group := getGroup acc.1 n.x n.y
    if group.liberties.card = 0 then
      group.stones.foldl
        (fun bc s => (setCell bc.1 s.x s.y none, bc.2 + 1)) acc
    else acc
  else acc

/-- The `neighbors.forEach` capture loop of `attemptMove`, run on the board
`b1` that already holds the newly placed stone at `(x, y)`. -/
def resolveCaptures (b1 : BoardState) (x y : Nat) (opponent : Player) :
    BoardState × Nat :=
  (getNeighbors b1 x y).foldl (cStep opponent) (b1, 0)

/-- Steps 2-5 of `attemptMove`, reached only when the occupied check passed
(so `(x, y)` is in range and empty): place the stone, resolve captures,
then reject as suicide if and only if the placed stone's group has no
liberties on the post-capture board. -/
def attemptMoveCore (board : BoardState) (x y : Nat) (player : Player) :
    MoveResult :=
  let newBoard := setCell board x y (some player)
  let opponent := player.opp
  let res := resolveCaptures newBoard x y opponent
  let myGroup := getGroup res.1 x y
  if myGroup.liberties.card = 0 then
    { valid := false, newBoard := none, capturedCount := none,
      message := some "Suicide move is not allowed." }
  else
    { valid := true, newBoard := some res.1, capturedCount := some res.2,
      message := none }

/-- Value category of the JS expression `board[y][x]`: `JsCell.undef` when
the row exists but the column index is out of range (JS yields `undefined`),
`JsCell.nullv` for an empty in-range cell (`null`), `JsCell.stone` for an
occupied cell. -/
inductive JsCell where
  | undef : JsCell
  | nullv : JsCell
  | stone : Player → JsCell
deriving DecidableEq

/-- The JS double index `board[y][x]` for arbitrary integer coordinates.
`none` models the `TypeError` thrown because `board[y]` is `undefined`.
Within the guarded ranges `List.getD` coincides with plain indexing. -/
def jsRead (b : BoardState) (x y : Int) : Option JsCell :=
  if 0 ≤ y ∧ y < (b.length : Int) then
    let row := b.getD y.toNat []
    if 0 ≤ x ∧ x < (row.length : Int) then
      match row.getD x.toNat none with
      | none => some JsCell.nullv
      | some p => some (JsCell.stone p)
    else some JsCell.undef
  else none

/-- `attemptMove` from goLogic.ts, on arbitrary integer coordinates.
`Except.error ()` models the `TypeError` thrown by the occupied check when
`board[y]` is `undefined`; every other input returns normally.  The JS
comparison `board[y][x] !== null` is true for `undefined` as well as for
stones, so any non-`null` read yields the occupied rejection. -/
def attemptMove (board : BoardState) (x y : Int) (player : Player) :
    Except Unit MoveResult :=
  match jsRead board x y with
  | none => Except.error ()
  | some v =>
    if v ≠ JsCell.nullv then
      Except.ok
        { valid := false, newBoard := none, capturedCount := none,
          message := some "Point is already occupied." }
    else
      Except.ok (attemptMoveCore board x.toNat y.toNat player)

/-! ### Scoring -/

/-- Per-colour capture counters, from the game state. -/
structure Captures where
  black : Nat
  white : Nat
deriving DecidableEq

/-- The winner field of the score result (`Player | 'draw'` in types.ts). -/
inductive Winner where
  | black : Winner
  | white : Winner
  | draw : Winner
deriving DecidableEq

/-- Black's half of `ScoreResult` from types.ts. -/
structure BlackScore where
  territory : Nat
  captures : Nat
  total : ℚ
deriving DecidableEq

/-- White's half of `ScoreResult` from types.ts. -/
structure WhiteScore where
  territory : Nat
  captures : Nat
  komi : ℚ
  total : ℚ
deriving DecidableEq

/-- `ScoreResult` from types.ts. -/
structure ScoreResult where
  black : BlackScore
  white : WhiteScore
  winner : Winner
deriving DecidableEq

/-- Body of the neighbour loop of the territory flood fill: an unvisited
empty neighbour is enqueued (and recorded in the region), a stone's colour
joins the touching-colour set.  `acc` is
(queue, visited, region, touchingColors). -/
def rStep (board : BoardState)
    (acc : List Point × Finset Point × List Point × Finset Player)
    (n : Point) : List Point × Finset Point × List Point × Finset Player :=
  match cellAt board n.x n.y with
  | none =>
    if n ∉ acc.2.1 then
      (acc.1 ++ [n], insert n acc.2.1, acc.2.2.1 ++ [n], acc.2.2.2)
    else acc
  | some content => (acc.1, acc.2.1, acc.2.2.1, insert content acc.2.2.2)

/-- The `while (queue.length > 0)` loop of the territory flood fill in
`calculateFinalScore` (the shared `visited` set threads through). -/
def regionFillAux (board : BoardState) :
    Nat → List Point → Finset Point → List Point → Finset Player →
    Finset Point × List Point × Finset Player
  | 0, _, visited, region, touching => (visited, region, touching)
  | _ + 1, [], visited, region, touching => (visited, region, touching)
  | fuel + 1, current :: rest, visited, region, touching =>
    let acc := (getNeighbors board current.x current.y).foldl (rStep board)
      (rest, visited, region, touching)
    regionFillAux board fuel acc.1 acc.2.1 acc.2.2.1 acc.2.2.2

/-- Body of the scan over all board positions in `calculateFinalScore`:
start a region fill at each unvisited empty point and credit the region to
a colour's territory when it touches exactly one colour.  `acc` is
(visited, blackTerritory, whiteTerritory). -/
def territoryScanStep (scoreBoard : BoardState)
    (acc : Finset Point × Nat × Nat) (p : Point) : Finset Point × Nat × Nat :=
  if cellAt scoreBoard p.x p.y = none ∧ p ∉ acc.1 then
    let f := regionFillAux scoreBoard (scoreBoard.length * scoreBoard.length)
      [p] (insert p acc.1) [p] ∅
    if f.2.2.card = 1 then
      if Player.black ∈ f.2.2 then (f.1, acc.2.1 + f.2.1.length, acc.2.2)
      else if Player.white ∈ f.2.2 then (f.1, acc.2.1, acc.2.2 + f.2.1.length)
      else (f.1, acc.2.1, acc.2.2)
    else (f.1, acc.2.1, acc.2.2)
  else acc

/-- The positions visited by `for (y) for (x)`, row by row. -/
def scanPositions (n : Nat) : List Point :=
  (List.range n).flatMap (fun y => (List.range n).map (fun x => ⟨x, y⟩))

/-- The full territory scan of `calculateFinalScore`; returns the final
visited set and the two territory counters. -/
def territoryScan (scoreBoard : BoardState) : Finset Point × Nat × Nat :=
  (scanPositions scoreBoard.length).foldl (territoryScanStep scoreBoard)
    (∅, 0, 0)

/-- Points are linearly ordered by row then column; used only to fix a
definite iteration order over a `Finset Point`. -/
instance : LinearOrder Point :=
  LinearOrder.lift' (fun p => toLex (p.y, p.x)) (by
    intro p q h
    cases p; cases q
    have := congrArg (fun z => ofLex z) h
    simp only [ofLex_toLex, Prod.mk.injEq] at this
    rw [Point.mk.injEq]
    exact ⟨this.2, this.1⟩)

/-- A definite enumeration of a `Finset Point` (row-major order).  The JS
`Set` iterates in insertion order, which a value-level set cannot retain;
every use below is order-independent. -/
def deadListOf (deadStones : Finset Point) : List Point :=
  deadStones.sort (fun p q => p ≤ q)

/-- The `deadStones.forEach` loop of `calculateFinalScore`: count removed
black and white stones (read on the *input* board) and blank them on the
scoring board. -/
def deadFold (board : BoardState) (deadList : List Point) :
    Nat × Nat × BoardState :=
  deadList.foldl (fun acc pos =>
    ((if cellAt board pos.x pos.y = some Player.black then acc.1 + 1
      else acc.1),
     (if cellAt board pos.x pos.y = some Player.white then acc.2.1 + 1
      else acc.2.1),
     setCell acc.2.2 pos.x pos.y none)) (0, 0, board)

/-- `calculateFinalScore` from goLogic.ts. -/
def calculateFinalScore (board : BoardState) (deadStones : Finset Point)
    (captures : Captures) (komi : ℚ) : ScoreResult :=
  let dead := deadFold board (deadListOf deadStones)
  let blackDeadCount := dead.1
  let whiteDeadCount := dead.2.1
  let scoreBoard := dead.2.2
  let terr := territoryScan scoreBoard
  let blackTerritory := terr.2.1
  let whiteTerritory := terr.2.2
  let totalBlackCaptures := captures.black + whiteDeadCount
  let totalBlack : ℚ := blackTerritory + totalBlackCaptures
  let totalWhiteCaptures := captures.white + blackDeadCount
  let totalWhite : ℚ := whiteTerritory + totalWhiteCaptures + komi
  { black := { territory := blackTerritory, captures := totalBlackCaptures,
               total := totalBlack },
    white := { territory := whiteTerritory, captures := totalWhiteCaptures,
               komi := komi, total := totalWhite },
    winner := if totalBlack > totalWhite then Winner.black
              else Winner.white }


/-- `S` is a union of complete colour-`c` groups of `b`: all members are
occupied by `c` and `S` is closed under same-colour steps. -/
def Saturated (b : BoardState) (c : Player) (S : Finset Point) : Prop :=
  (∀ s ∈ S, inRange b s ∧ cellAt b s.x s.y = some c) ∧
  (∀ s ∈ S, ∀ t : Point, stepOn b c s t → t ∈ S)

/-- The group of `n` on `b` (colour `c`) has at least one liberty. -/
def HasLib (b : BoardState) (c : Player) (n : Point) : Prop :=
  ∃ l : Point, inRange b l ∧ cellAt b l.x l.y = none ∧
    ∃ t : Point, reaches b c n t ∧ Adj t l

/-! ### Claim-level predicates -/

/-- The property of C1: every orthogonally adjacent opponent group left
with zero liberties by the placement is removed by the capture loop, and
the move is accepted whenever the placed stone's group has at least one
liberty on the post-capture board. -/
def CaptureThenAcceptClaim (b : BoardState) (x y : Nat) (p : Player) : Prop :=
  (∀ n ∈ getNeighbors (setCell b x y (some p)) x y,
    cellAt (setCell b x y (some p)) n.x n.y = some p.opp →
    (getGroup (setCell b x y (some p)) n.x n.y).liberties.card = 0 →
    ∀ s ∈ (getGroup (setCell b x y (some p)) n.x n.y).stones,
      cellAt (resolveCaptures (setCell b x y (some p)) x y p.opp).1
        s.x s.y = none) ∧
  ((getGroup (resolveCaptures (setCell b x y (some p)) x y p.opp).1
      x y).liberties.card ≠ 0 →
    attemptMove b (x : Int) (y : Int) p = Except.ok
      { valid := true,
        newBoard :=
          some (resolveCaptures (setCell b x y (some p)) x y p.opp).1,
        capturedCount :=
          some (resolveCaptures (setCell b x y (some p)) x y p.opp).2,
        message := none })

/-- The property of C2: an accepted move returns the input board with the
player's stone added at `(x, y)` and exactly the members of the adjacent
opponent groups that have zero liberties after the placement removed;
every other point is unchanged and `capturedCount` is the number of
removed stones. -/
def MoveEffectClaim (b : BoardState) (x y : Nat) (p : Player) : Prop :=
  ∀ r : MoveResult, attemptMove b (x : Int) (y : Int) p = Except.ok r →
    r.valid = true →
    ∃ (nb : BoardState) (C : Finset Point),
      r.newBoard = some nb ∧
      (∀ q : Point, q ∈ C ↔ ∃ n : Point, Adj ⟨x, y⟩ n ∧ inRange b n ∧
        cellAt (setCell b x y (some p)) n.x n.y = some p.opp ∧
        ¬ HasLib (setCell b x y (some p)) p.opp n ∧
        reaches (setCell b x y (some p)) p.opp n q) ∧
      cellAt nb x y = some p ∧
      (∀ q ∈ C, cellAt nb q.x q.y = none) ∧
      (∀ u w : Nat, ¬ (u = x ∧ w = y) → (⟨u, w⟩ : Point) ∉ C →
        cellAt nb u w = cellAt b u w) ∧
      r.capturedCount = some C.card

/-- The property of the amended C4: rejection happens exactly for an
occupied target or a suicide (zero liberties of the placed group after
capture resolution), with the exact messages of the source and no
`newBoard` in either case. -/
def RejectionClaim (b : BoardState) (x y : Nat) (p : Player) : Prop :=
  ∃ r : MoveResult, attemptMove b (x : Int) (y : Int) p = Except.ok r ∧
    (r.valid = false ↔ (cellAt b x y ≠ none ∨
      (getGroup (resolveCaptures (setCell b x y (some p)) x y p.opp).1
        x y).liberties.card = 0)) ∧
    (cellAt b x y ≠ none →
      r = ⟨false, none, none, some "Point is already occupied."⟩) ∧
    (cellAt b x y = none →
      (getGroup (resolveCaptures (setCell b x y (some p)) x y p.opp).1
        x y).liberties.card = 0 →
      r = ⟨false, none, none, some "Suicide move is not allowed."⟩)

/-- No group on the board has zero liberties (stated through the engine's
own `getGroup`, so it is decidable on concrete boards). -/
def NoDeadGroups (b : BoardState) : Prop :=
  ∀ z ∈ allPos b, cellAt b z.x z.y ≠ none →
    (getGroup b z.x z.y).liberties ≠ ∅

instance (b : BoardState) : Decidable (NoDeadGroups b) := by
  unfold NoDeadGroups
  infer_instance

/-- The property claimed of `getGroup`: an empty point yields the empty
group and liberty set; an occupied point yields exactly its maximal
connected component (the reflexive-transitive closure of same-colour
adjacency from the seed) and exactly the in-range empty points adjacent to
some stone of the component, deduplicated by the `Finset`. -/
def GetGroupClaim (b : BoardState) (x y : Nat) : Prop :=
  (cellAt b x y = none → getGroup b x y = ⟨[], ∅⟩) ∧
  (∀ c : Player, cellAt b x y = some c →
    (getGroup b x y).stones.Nodup ∧
    (∀ p, p ∈ (getGroup b x y).stones ↔ reaches b c ⟨x, y⟩ p) ∧
    (∀ q, q ∈ (getGroup b x y).liberties ↔ inRange b q ∧
      cellAt b q.x q.y = none ∧
      ∃ p ∈ (getGroup b x y).stones, Adj p q))

/-- The property claimed of the score totals: the per-colour `captures`
fields add the in-game counters to the dead stones of the opposite colour
(as read on the input board), and each `total` is territory plus that
capture sum, plus komi on white's side. -/
def ScoreTotalsClaim (board : BoardState) (deadStones : Finset Point)
    (captures : Captures) (komi : ℚ) : Prop :=
  (calculateFinalScore board deadStones captures komi).black.captures =
    captures.black + (deadStones.filter
      (fun q => cellAt board q.x q.y = some Player.white)).card ∧
  (calculateFinalScore board deadStones captures komi).white.captures =
    captures.white + (deadStones.filter
      (fun q => cellAt board q.x q.y = some Player.black)).card ∧
  (calculateFinalScore board deadStones captures komi).black.total =
    ((calculateFinalScore board deadStones captures komi).black.territory : ℚ)
      + captures.black + ((deadStones.filter
      (fun q => cellAt board q.x q.y = some Player.white)).card : ℚ) ∧
  (calculateFinalScore board deadStones captures komi).white.total =
    ((calculateFinalScore board deadStones captures komi).white.territory : ℚ)
      + captures.white + ((deadStones.filter
      (fun q => cellAt board q.x q.y = some Player.black)).card : ℚ) + komi

/-- One step of empty-region connectivity: `t` is an in-range empty
neighbour of `s`. -/
def emptyStep (b : BoardState) (s t : Point) : Prop :=
  Adj s t ∧ inRange b t ∧ cellAt b t.x t.y = none

/-- `emptyReaches b s t`: `t` belongs to the maximal 4-connected empty
region grown from `s`. -/
def emptyReaches (b : BoardState) : Point → Point → Prop :=
  Relation.ReflTransGen (emptyStep b)

/-- The empty region of `p` borders a stone of colour `c`. -/
def touches (b : BoardState) (p : Point) (c : Player) : Prop :=
  ∃ q, emptyReaches b p q ∧ ∃ r, Adj q r ∧ cellAt b r.x r.y = some c

/-- The region of `p` borders black stones only. -/
def BlackRegion (b : BoardState) (p : Point) : Prop :=
  touches b p Player.black ∧ ¬ touches b p Player.white

/-- The region of `p` borders white stones only. -/
def WhiteRegion (b : BoardState) (p : Point) : Prop :=
  touches b p Player.white ∧ ¬ touches b p Player.black

/-- The region of `p` is neutral: it borders both colours or neither. -/
def NeutralRegion (b : BoardState) (p : Point) : Prop :=
  touches b p Player.black ↔ touches b p Player.white

/-- `V` is a union of complete maximal empty regions: every member is an
in-range empty point and `V` is closed under empty steps. -/
def EmptySaturated (b : BoardState) (V : Finset Point) : Prop :=
  ∀ v ∈ V, inRange b v ∧ cellAt b v.x v.y = none ∧
    ∀ t, emptyStep b v t → t ∈ V

/-- The region fill started by the scan at an unvisited empty point `p`,
exactly as `calculateFinalScore` invokes it. -/
def regionFillAt (sb : BoardState) (vis : Finset Point) (p : Point) :
    Finset Point × List Point × Finset Player :=
  regionFillAux sb (sb.length * sb.length) [p] (insert p vis) [p] ∅

/-- The scoring view of the board: dead stones removed. -/
def scoreBoardOf (board : BoardState) (deadStones : Finset Point) :
    BoardState :=
  (deadFold board (deadListOf deadStones)).2.2

/-- The property claimed of the territory computation: each territory
counter counts exactly the in-range empty points of the scoring view whose
maximal empty region borders only that colour; every point is classified
into exactly one of the three region classes; the classification is
constant on each maximal empty region. -/
def TerritoryClaim (board : BoardState) (deadStones : Finset Point)
    (captures : Captures) (komi : ℚ) : Prop :=
  (calculateFinalScore board deadStones captures komi).black.territory =
    {p : Point | inRange (scoreBoardOf board deadStones) p ∧
      cellAt (scoreBoardOf board deadStones) p.x p.y = none ∧
      BlackRegion (scoreBoardOf board deadStones) p}.ncard ∧
  (calculateFinalScore board deadStones captures komi).white.territory =
    {p : Point | inRange (scoreBoardOf board deadStones) p ∧
      cellAt (scoreBoardOf board deadStones) p.x p.y = none ∧
      WhiteRegion (scoreBoardOf board deadStones) p}.ncard ∧
  (∀ p : Point,
    (BlackRegion (scoreBoardOf board deadStones) p ∧
      ¬ WhiteRegion (scoreBoardOf board deadStones) p ∧
      ¬ NeutralRegion (scoreBoardOf board deadStones) p) ∨
    (¬ BlackRegion (scoreBoardOf board deadStones) p ∧
      WhiteRegion (scoreBoardOf board deadStones) p ∧
      ¬ NeutralRegion (scoreBoardOf board deadStones) p) ∨
    (¬ BlackRegion (scoreBoardOf board deadStones) p ∧
      ¬ WhiteRegion (scoreBoardOf board deadStones) p ∧
      NeutralRegion (scoreBoardOf board deadStones) p)) ∧
  (∀ p q : Point, inRange (scoreBoardOf board deadStones) p →
    cellAt (scoreBoardOf board deadStones) p.x p.y = none →
    emptyReaches (scoreBoardOf board deadStones) p q →
    ∀ c : Player, (touches (scoreBoardOf board deadStones) p c ↔
      touches (scoreBoardOf board deadStones) q c))

/-! ### Lemmas and theorems -/

theorem Adj.symm {p q : Point} (h : Adj p q) : Adj q p := by
  rcases p with ⟨px, py⟩; rcases q with ⟨qx, qy⟩
  unfold Adj at h ⊢; dsimp only at h ⊢; omega

theorem mem_allPos {b : BoardState} {p : Point} :
    p ∈ allPos b ↔ inRange b p := by
  rcases p with ⟨px, py⟩
  simp only [allPos, Finset.mem_image, Finset.mem_product, Finset.mem_range,
    inRange]
  constructor
  · rintro ⟨⟨qx, qy⟩, ⟨hx, hy⟩, h⟩
    cases h; exact ⟨hx, hy⟩
  · rintro ⟨hx, hy⟩
    exact ⟨(px, py), ⟨hx, hy⟩, rfl⟩

theorem allPos_card (b : BoardState) :
    (allPos b).card = b.length * b.length := by
  rw [allPos, Finset.card_image_of_injective, Finset.card_product,
    Finset.card_range]
  intro a b h
  cases a; cases b; simpa [Point.mk.injEq, Prod.ext_iff] using h

/-! ### Basic lemmas about board reads and writes -/

theorem setCell_length (b : BoardState) (x y : Nat) (v : Option Player) :
    (setCell b x y v).length = b.length := by
  simp [setCell]

theorem getD_eq_getElem {b : BoardState} {y : Nat} (hy : y < b.length) :
    b.getD y [] = b[y] := by
  rw [List.getD_eq_getElem?_getD, List.getElem?_eq_getElem hy]
  rfl

theorem IsSquare.setCell {b : BoardState} (hsq : IsSquare b) (x y : Nat)
    (v : Option Player) : IsSquare (setCell b x y v) := by
  by_cases hy : y < b.length
  · intro row hrow
    rw [setCell_length]
    rcases List.mem_or_eq_of_mem_set hrow with h | h
    · exact hsq row h
    · subst h
      rw [List.length_set, getD_eq_getElem hy]
      exact hsq _ (b.getElem_mem hy)
  · intro row hrow
    rw [setCell_length]
    have hb : QiToGo.setCell b x y v = b :=
      List.set_eq_of_length_le (le_of_not_lt hy)
    rw [hb] at hrow
    exact hsq row hrow

theorem cellAt_of_lt {b : BoardState} {y : Nat} (x : Nat) (hy : y < b.length) :
    cellAt b x y = (b[y][x]?).join := by
  rw [cellAt, List.getElem?_eq_getElem hy]
  rfl

theorem cellAt_of_le {b : BoardState} {y : Nat} (x : Nat) (hy : b.length ≤ y) :
    cellAt b x y = none := by
  rw [cellAt, List.getElem?_eq_none hy]
  rfl

theorem cellAt_setCell {b : BoardState} (hsq : IsSquare b)
    (x y u w : Nat) (v : Option Player) :
    cellAt (setCell b x y v) u w =
      if x = u ∧ y = w ∧ x < b.length ∧ y < b.length then v
      else cellAt b u w := by
  by_cases hy : y < b.length
  · have hlen : b[y].length = b.length := hsq _ (b.getElem_mem hy)
    by_cases hw : y = w
    · subst hw
      have hrow : (setCell b x y v)[y]? = some (b[y].set x v) := by
        rw [setCell, List.getElem?_set, if_pos rfl, if_pos hy,
          getD_eq_getElem hy]
      have hL : cellAt (setCell b x y v) u y = ((b[y].set x v)[u]?).join := by
        rw [cellAt, hrow]
        rfl
      rw [hL, cellAt_of_lt u hy, List.getElem?_set]
      by_cases hu : x = u
      · subst hu
        by_cases hx : x < b.length
        · rw [if_pos rfl, if_pos (by omega), if_pos ⟨rfl, rfl, hx, hy⟩]
          rfl
        · rw [if_pos rfl, if_neg (by omega), if_neg (by tauto),
            List.getElem?_eq_none (show b[y].length ≤ x by omega)]
      · rw [if_neg hu, if_neg (by tauto)]
    · have hset : (setCell b x y v)[w]? = b[w]? := by
        rw [setCell]
        exact List.getElem?_set_ne hw
      rw [cellAt, cellAt, hset, if_neg (by tauto)]
  · have hb : QiToGo.setCell b x y v = b :=
      List.set_eq_of_length_le (le_of_not_lt hy)
    rw [hb, if_neg (by tauto)]

theorem inRange_of_cellAt_some {b : BoardState} (hsq : IsSquare b)
    {x y : Nat} {c : Player} (h : cellAt b x y = some c) :
    inRange b ⟨x, y⟩ := by
  by_cases hy : y < b.length
  · rw [cellAt_of_lt x hy] at h
    refine ⟨?_, hy⟩
    by_cases hx : x < b[y].length
    · rwa [hsq _ (b.getElem_mem hy)] at hx
    · rw [List.getElem?_eq_none (le_of_not_lt hx)] at h
      simp at h
  · rw [cellAt_of_le x (le_of_not_lt hy)] at h
    simp at h

/-- Membership in `getNeighbors` is exactly orthogonal adjacency to an
in-range point. -/
theorem mem_getNeighbors {b : BoardState} {x y : Nat} {n : Point} :
    n ∈ getNeighbors b x y ↔ Adj ⟨x, y⟩ n ∧ inRange b n := by
  rcases n with ⟨nx, ny⟩
  simp only [getNeighbors, List.mem_map, List.mem_filter, List.mem_cons,
    List.mem_singleton, List.not_mem_nil, or_false, isValidPoint,
    Bool.and_eq_true, decide_eq_true_eq]
  constructor
  · rintro ⟨⟨cx, cy⟩, ⟨hc, hv⟩, heq⟩
    obtain ⟨⟨⟨h0x, h1x⟩, h0y⟩, h1y⟩ := hv
    injection heq with hx hy
    rcases hc with h | h | h | h <;>
      · injection h with ha hb
        subst ha; subst hb
        refine ⟨?_, ?_, ?_⟩ <;> simp only [Adj, inRange] <;> omega
  · rintro ⟨hadj, hx, hy⟩
    dsimp only at hx hy
    rcases hadj with ⟨h1, h2⟩ | ⟨h1, h2⟩ | ⟨h1, h2⟩ | ⟨h1, h2⟩ <;>
      dsimp only at h1 h2
    · exact ⟨((x : Int) + 1, (y : Int)), ⟨Or.inl rfl, by dsimp only; omega⟩,
        by dsimp only; simp only [Point.mk.injEq]; omega⟩
    · exact ⟨((x : Int) - 1, (y : Int)), ⟨Or.inr (Or.inl rfl),
        by dsimp only; omega⟩,
        by dsimp only; simp only [Point.mk.injEq]; omega⟩
    · exact ⟨((x : Int), (y : Int) + 1), ⟨Or.inr (Or.inr (Or.inl rfl)),
        by dsimp only; omega⟩,
        by dsimp only; simp only [Point.mk.injEq]; omega⟩
    · exact ⟨((x : Int), (y : Int) - 1), ⟨Or.inr (Or.inr (Or.inr rfl)),
        by dsimp only; omega⟩,
        by dsimp only; simp only [Point.mk.injEq]; omega⟩

theorem reaches_cell {b : BoardState} {c : Player} {s t : Point}
    (hs : cellAt b s.x s.y = some c) (h : reaches b c s t) :
    cellAt b t.x t.y = some c := by
  induction h with
  | refl => exact hs
  | tail _ hstep _ => exact hstep.2.2

theorem reaches_inRange {b : BoardState} {c : Player} {s t : Point}
    (hs : inRange b s) (h : reaches b c s t) : inRange b t := by
  induction h with
  | refl => exact hs
  | tail _ hstep _ => exact hstep.2.1

theorem reaches_symm {b : BoardState} {c : Player} {s t : Point}
    (hcell : cellAt b s.x s.y = some c) (hin : inRange b s)
    (h : reaches b c s t) : reaches b c t s := by
  induction h with
  | refl => exact Relation.ReflTransGen.refl
  | tail hsm hstep ih =>
    exact Relation.ReflTransGen.head
      ⟨hstep.1.symm, reaches_inRange hin hsm, reaches_cell hcell hsm⟩ ih

theorem getGroup_of_empty {b : BoardState} {x y : Nat}
    (h : cellAt b x y = none) : getGroup b x y = ⟨[], ∅⟩ := by
  rw [getGroup, h]

/-- Characterisation of one full pass of the neighbour loop. -/
theorem gStep_fold (b : BoardState) (c : Player) (ns : List Point) :
    ∀ (q : List Point) (vis lb : Finset Point),
    (∀ p ∈ q, p ∈ vis) → q.Nodup →
    ∃ nw : List Point,
      (ns.foldl (gStep b c) (q, vis, lb)).1 = q ++ nw ∧
      (ns.foldl (gStep b c) (q, vis, lb)).2.1 = vis ∪ nw.toFinset ∧
      nw.Nodup ∧ (∀ p ∈ nw, p ∉ vis) ∧
      (∀ p ∈ nw, p ∈ ns ∧ cellAt b p.x p.y = some c) ∧
      (∀ p ∈ ns, cellAt b p.x p.y = some c → p ∈ vis ∨ p ∈ nw) ∧
      (∀ p, p ∈ (ns.foldl (gStep b c) (q, vis, lb)).2.2 ↔
        p ∈ lb ∨ (p ∈ ns ∧ cellAt b p.x p.y = none)) := by
  induction ns with
  | nil =>
    intro q vis lb hq hnd
    exact ⟨[], by simp, by simp, by simp, by simp, by simp, by simp,
      fun p => by simp⟩
  | cons n ns ih =>
    intro q vis lb hq hnd
    rw [List.foldl_cons]
    cases hcell : cellAt b n.x n.y with
    | none =>
      have hstep : gStep b c (q, vis, lb) n = (q, vis, insert n lb) := by
        rw [gStep, hcell]
      rw [hstep]
      obtain ⟨nw, h1, h2, h3, h4, h5, h6, h7⟩ := ih q vis (insert n lb) hq hnd
      refine ⟨nw, h1, h2, h3, h4, ?_, ?_, ?_⟩
      · intro p hp
        obtain ⟨hpn, hpc⟩ := h5 p hp
        exact ⟨List.mem_cons_of_mem _ hpn, hpc⟩
      · intro p hp hpc
        rcases List.mem_cons.mp hp with rfl | hp'
        · rw [hcell] at hpc; cases hpc
        · exact h6 p hp' hpc
      · intro p
        rw [h7 p, Finset.mem_insert]
        constructor
        · rintro ((rfl | hp) | ⟨hpn, hpc⟩)
          · exact Or.inr ⟨List.mem_cons_self _ _, hcell⟩
          · exact Or.inl hp
          · exact Or.inr ⟨List.mem_cons_of_mem _ hpn, hpc⟩
        · rintro (hp | ⟨hpn, hpc⟩)
          · exact Or.inl (Or.inr hp)
          · rcases List.mem_cons.mp hpn with rfl | hp'
            · exact Or.inl (Or.inl rfl)
            · exact Or.inr ⟨hp', hpc⟩
    | some c' =>
      by_cases hcc : c' = c ∧ n ∉ vis
      · obtain ⟨rfl, hnvis⟩ := hcc
        have hstep : gStep b c' (q, vis, lb) n =
            (q ++ [n], insert n vis, lb) := by
          rw [gStep, hcell]
          simp [hnvis]
        rw [hstep]
        have hq' : ∀ p ∈ q ++ [n], p ∈ insert n vis := by
          intro p hp
          rcases List.mem_append.mp hp with hp' | hp'
          · exact Finset.mem_insert_of_mem (hq p hp')
          · rw [List.mem_singleton] at hp'
            subst hp'
            exact Finset.mem_insert_self _ _
        have hnd' : (q ++ [n]).Nodup := by
          rw [List.nodup_append]
          refine ⟨hnd, List.nodup_singleton n, ?_⟩
          intro p hp hpn
          rw [List.mem_singleton] at hpn
          subst hpn
          exact hnvis (hq _ hp)
        obtain ⟨nw, h1, h2, h3, h4, h5, h6, h7⟩ :=
          ih (q ++ [n]) (insert n vis) lb hq' hnd'
        have hnnw : n ∉ nw := fun hn => h4 n hn (Finset.mem_insert_self _ _)
        refine ⟨n :: nw, ?_, ?_, ?_, ?_, ?_, ?_, ?_⟩
        · rw [h1, List.append_assoc]
          rfl
        · rw [h2]
          ext p
          simp only [Finset.mem_union, Finset.mem_insert, List.mem_toFinset,
            List.mem_cons]
          tauto
        · exact List.nodup_cons.mpr ⟨hnnw, h3⟩
        · intro p hp
          rcases List.mem_cons.mp hp with rfl | hp'
          · exact hnvis
          · exact fun hpv => h4 p hp' (Finset.mem_insert_of_mem hpv)
        · intro p hp
          rcases List.mem_cons.mp hp with rfl | hp'
          · exact ⟨List.mem_cons_self _ _, hcell⟩
          · obtain ⟨hpn, hpc⟩ := h5 p hp'
            exact ⟨List.mem_cons_of_mem _ hpn, hpc⟩
        · intro p hp hpc
          rcases List.mem_cons.mp hp with rfl | hp'
          · exact Or.inr (List.mem_cons_self _ _)
          · rcases h6 p hp' hpc with hp'' | hp''
            · rcases Finset.mem_insert.mp hp'' with rfl | hp'''
              · exact Or.inr (List.mem_cons_self _ _)
              · exact Or.inl hp'''
            · exact Or.inr (List.mem_cons_of_mem _ hp'')
        · intro p
          rw [h7 p]
          constructor
          · rintro (hp | ⟨hpn, hpc⟩)
            · exact Or.inl hp
            · exact Or.inr ⟨List.mem_cons_of_mem _ hpn, hpc⟩
          · rintro (hp | ⟨hpn, hpc⟩)
            · exact Or.inl hp
            · rcases List.mem_cons.mp hpn with rfl | hp'
              · rw [hcell] at hpc; cases hpc
              · exact Or.inr ⟨hp', hpc⟩
      · have hstep : gStep b c (q, vis, lb) n = (q, vis, lb) := by
          rw [gStep, hcell]
          simp only [if_neg hcc]
        rw [hstep]
        obtain ⟨nw, h1, h2, h3, h4, h5, h6, h7⟩ := ih q vis lb hq hnd
        refine ⟨nw, h1, h2, h3, h4, ?_, ?_, ?_⟩
        · intro p hp
          obtain ⟨hpn, hpc⟩ := h5 p hp
          exact ⟨List.mem_cons_of_mem _ hpn, hpc⟩
        · intro p hp hpc
          rcases List.mem_cons.mp hp with rfl | hp'
          · rw [hcell] at hpc
            injection hpc with hc'
            subst hc'
            rcases not_and_or.mp hcc with h | h
            · exact absurd rfl h
            · exact Or.inl (not_not.mp h)
          · exact h6 p hp' hpc
        · intro p
          rw [h7 p]
          constructor
          · rintro (hp | ⟨hpn, hpc⟩)
            · exact Or.inl hp
            · exact Or.inr ⟨List.mem_cons_of_mem _ hpn, hpc⟩
          · rintro (hp | ⟨hpn, hpc⟩)
            · exact Or.inl hp
            · rcases List.mem_cons.mp hpn with rfl | hp'
              · rw [hcell] at hpc; cases hpc
              · exact Or.inr ⟨hp', hpc⟩

/-- Invariant-carrying correctness of the BFS loop: starting from any state
satisfying the loop invariants with enough fuel, the loop returns the stones
accumulated so far plus everything reachable from the queue, together with
all their empty neighbours as liberties. -/
theorem getGroupAux_spec (b : BoardState) (c : Player) (seed : Point) :
    ∀ (fuel : Nat) (queue stones : List Point) (visited libs : Finset Point),
    (∀ p, p ∈ visited ↔ p ∈ stones ∨ p ∈ queue) →
    queue.Nodup → stones.Nodup → (∀ p ∈ stones, p ∉ queue) →
    (∀ p ∈ visited, inRange b p ∧ cellAt b p.x p.y = some c) →
    (∀ p ∈ visited, reaches b c seed p) →
    (∀ p ∈ stones, ∀ n : Point, Adj p n → inRange b n →
      (cellAt b n.x n.y = none → n ∈ libs) ∧
      (cellAt b n.x n.y = some c → n ∈ visited)) →
    (∀ q ∈ libs, inRange b q ∧ cellAt b q.x q.y = none ∧
      ∃ p ∈ stones, Adj p q) →
    ((allPos b).card - visited.card) + queue.length ≤ fuel →
    (getGroupAux b c fuel queue visited stones libs).1.Nodup ∧
    (∀ p ∈ stones, p ∈ (getGroupAux b c fuel queue visited stones libs).1) ∧
    (∀ p ∈ queue, p ∈ (getGroupAux b c fuel queue visited stones libs).1) ∧
    (∀ p ∈ (getGroupAux b c fuel queue visited stones libs).1,
      inRange b p ∧ cellAt b p.x p.y = some c ∧ reaches b c seed p) ∧
    (∀ p ∈ (getGroupAux b c fuel queue visited stones libs).1,
      ∀ n : Point, Adj p n → inRange b n →
      (cellAt b n.x n.y = none →
        n ∈ (getGroupAux b c fuel queue visited stones libs).2) ∧
      (cellAt b n.x n.y = some c →
        n ∈ (getGroupAux b c fuel queue visited stones libs).1)) ∧
    (∀ q ∈ (getGroupAux b c fuel queue visited stones libs).2,
      inRange b q ∧ cellAt b q.x q.y = none ∧
      ∃ p ∈ (getGroupAux b c fuel queue visited stones libs).1, Adj p q) := by
  intro fuel
  induction fuel with
  | zero =>
    intro queue stones visited libs hvis hnq hns hdisj hcol hreach hclosed
      hlibs hfuel
    have hqnil : queue = [] := List.length_eq_zero.mp (by omega)
    subst hqnil
    simp only [getGroupAux]
    refine ⟨hns, fun p hp => hp, fun p hp => absurd hp (List.not_mem_nil p),
      ?_, ?_, hlibs⟩
    · intro p hp
      have hv : p ∈ visited := (hvis p).mpr (Or.inl hp)
      exact ⟨(hcol p hv).1, (hcol p hv).2, hreach p hv⟩
    · intro p hp n hadj hin
      obtain ⟨h1, h2⟩ := hclosed p hp n hadj hin
      refine ⟨h1, fun hc => ?_⟩
      rcases (hvis n).mp (h2 hc) with h | h
      · exact h
      · exact absurd h (List.not_mem_nil n)
  | succ fuel ih =>
    intro queue stones visited libs hvis hnq hns hdisj hcol hreach hclosed
      hlibs hfuel
    cases queue with
    | nil =>
      simp only [getGroupAux]
      refine ⟨hns, fun p hp => hp, fun p hp => absurd hp (List.not_mem_nil p),
        ?_, ?_, hlibs⟩
      · intro p hp
        have hv : p ∈ visited := (hvis p).mpr (Or.inl hp)
        exact ⟨(hcol p hv).1, (hcol p hv).2, hreach p hv⟩
      · intro p hp n hadj hin
        obtain ⟨h1, h2⟩ := hclosed p hp n hadj hin
        refine ⟨h1, fun hc => ?_⟩
        rcases (hvis n).mp (h2 hc) with h | h
        · exact h
        · exact absurd h (List.not_mem_nil n)
    | cons current rest =>
      simp only [getGroupAux]
      have hrest_vis : ∀ p ∈ rest, p ∈ visited :=
        fun p hp => (hvis p).mpr (Or.inr (List.mem_cons_of_mem _ hp))
      have hrestnd : rest.Nodup := (List.nodup_cons.mp hnq).2
      have hcurnrest : current ∉ rest := (List.nodup_cons.mp hnq).1
      obtain ⟨nw, hf1, hf2, hfnd, hfnotvis, hfprop, hfcover, hflib⟩ :=
        gStep_fold b c (getNeighbors b current.x current.y) rest visited libs
          hrest_vis hrestnd
      have hcur_vis : current ∈ visited :=
        (hvis current).mpr (Or.inr (List.mem_cons_self _ _))
      obtain ⟨hcur_in, hcur_cell⟩ := hcol current hcur_vis
      have hcur_reach := hreach current hcur_vis
      rw [hf1, hf2]
      have hnw_facts : ∀ p ∈ nw,
          inRange b p ∧ cellAt b p.x p.y = some c ∧ Adj current p := by
        intro p hp
        obtain ⟨hpn, hpc⟩ := hfprop p hp
        have hm := mem_getNeighbors.mp hpn
        exact ⟨hm.2, hpc, hm.1⟩
      have hvis' : ∀ p, p ∈ visited ∪ nw.toFinset ↔
          p ∈ stones ++ [current] ∨ p ∈ rest ++ nw := by
        intro p
        simp only [Finset.mem_union, List.mem_toFinset, List.mem_append,
          List.mem_singleton, hvis p, List.mem_cons]
        tauto
      have hnq' : (rest ++ nw).Nodup := by
        rw [List.nodup_append]
        exact ⟨hrestnd, hfnd,
          fun p hp hpnw => hfnotvis p hpnw (hrest_vis p hp)⟩
      have hcur_stones : current ∉ stones :=
        fun h => hdisj current h (List.mem_cons_self _ _)
      have hns' : (stones ++ [current]).Nodup := by
        rw [List.nodup_append]
        refine ⟨hns, List.nodup_singleton _, ?_⟩
        intro p hp hpc
        rw [List.mem_singleton] at hpc
        subst hpc
        exact hcur_stones hp
      have hdisj' : ∀ p ∈ stones ++ [current], p ∉ rest ++ nw := by
        intro p hp hpq
        rcases List.mem_append.mp hpq with hpr | hpnw
        · rcases List.mem_append.mp hp with hps | hpc
          · exact hdisj p hps (List.mem_cons_of_mem _ hpr)
          · rw [List.mem_singleton] at hpc
            subst hpc
            exact hcurnrest hpr
        · have hv : p ∈ visited := by
            rcases List.mem_append.mp hp with hps | hpc
            · exact (hvis p).mpr (Or.inl hps)
            · rw [List.mem_singleton] at hpc
              subst hpc
              exact hcur_vis
          exact hfnotvis p hpnw hv
      have hcol' : ∀ p ∈ visited ∪ nw.toFinset,
          inRange b p ∧ cellAt b p.x p.y = some c := by
        intro p hp
        rcases Finset.mem_union.mp hp with h | h
        · exact hcol p h
        · rw [List.mem_toFinset] at h
          obtain ⟨hin, hc, _⟩ := hnw_facts p h
          exact ⟨hin, hc⟩
      have hreach' : ∀ p ∈ visited ∪ nw.toFinset, reaches b c seed p := by
        intro p hp
        rcases Finset.mem_union.mp hp with h | h
        · exact hreach p h
        · rw [List.mem_toFinset] at h
          obtain ⟨hin, hc, hadj⟩ := hnw_facts p h
          exact Relation.ReflTransGen.tail hcur_reach ⟨hadj, hin, hc⟩
      have hclosed' : ∀ p ∈ stones ++ [current], ∀ n : Point,
          Adj p n → inRange b n →
          (cellAt b n.x n.y = none → n ∈ (List.foldl (gStep b c)
            (rest, visited, libs) (getNeighbors b current.x current.y)).2.2) ∧
          (cellAt b n.x n.y = some c → n ∈ visited ∪ nw.toFinset) := by
        intro p hp n hadj hin
        rcases List.mem_append.mp hp with hps | hpc
        · obtain ⟨h1, h2⟩ := hclosed p hps n hadj hin
          exact ⟨fun he => (hflib n).mpr (Or.inl (h1 he)),
            fun hc => Finset.mem_union_left _ (h2 hc)⟩
        · rw [List.mem_singleton] at hpc
          subst hpc
          have hmem : n ∈ getNeighbors b p.x p.y :=
            mem_getNeighbors.mpr ⟨hadj, hin⟩
          constructor
          · intro he
            exact (hflib n).mpr (Or.inr ⟨hmem, he⟩)
          · intro hc
            rcases hfcover n hmem hc with h | h
            · exact Finset.mem_union_left _ h
            · exact Finset.mem_union_right _ (List.mem_toFinset.mpr h)
      have hlibs' : ∀ q ∈ (List.foldl (gStep b c)
          (rest, visited, libs) (getNeighbors b current.x current.y)).2.2,
          inRange b q ∧ cellAt b q.x q.y = none ∧
          ∃ p ∈ stones ++ [current], Adj p q := by
        intro q hq2
        rcases (hflib q).mp hq2 with h | ⟨hqn, hqe⟩
        · obtain ⟨h1, h2, p, hp, hadj⟩ := hlibs q h
          exact ⟨h1, h2, p, List.mem_append_left _ hp, hadj⟩
        · have hm := mem_getNeighbors.mp hqn
          exact ⟨hm.2, hqe, current,
            List.mem_append_right _ (List.mem_singleton.mpr rfl), hm.1⟩
      have hdisj_nw : Disjoint visited nw.toFinset := by
        rw [Finset.disjoint_right]
        intro p hp
        rw [List.mem_toFinset] at hp
        exact hfnotvis p hp
      have hcard : (visited ∪ nw.toFinset).card = visited.card + nw.length := by
        rw [Finset.card_union_of_disjoint hdisj_nw,
          List.toFinset_card_of_nodup hfnd]
      have hsub : visited ∪ nw.toFinset ⊆ allPos b := by
        intro p hp
        rcases Finset.mem_union.mp hp with h | h
        · exact mem_allPos.mpr (hcol p h).1
        · rw [List.mem_toFinset] at h
          exact mem_allPos.mpr (hnw_facts p h).1
      have hcard_le := Finset.card_le_card hsub
      have hfuel' : ((allPos b).card - (visited ∪ nw.toFinset).card) +
          (rest ++ nw).length ≤ fuel := by
        rw [hcard, List.length_append]
        simp only [List.length_cons] at hfuel
        omega
      obtain ⟨i1, i2, i3, i4, i5, i6⟩ :=
        ih (rest ++ nw) (stones ++ [current]) (visited ∪ nw.toFinset) _
          hvis' hnq' hns' hdisj' hcol' hreach' hclosed' hlibs' hfuel'
      refine ⟨i1, ?_, ?_, i4, i5, i6⟩
      · intro p hp
        exact i2 p (List.mem_append_left _ hp)
      · intro p hp
        rcases List.mem_cons.mp hp with rfl | hp'
        · exact i2 p (List.mem_append_right _ (List.mem_singleton.mpr rfl))
        · exact i3 p (List.mem_append_left _ hp')

/-- Correctness of `getGroup` on an occupied seed: stones are exactly the
connected same-colour component of the seed, liberties are exactly the
in-range empty points adjacent to some stone of the component. -/
theorem getGroup_spec {b : BoardState} {x y : Nat} {c : Player}
    (hsq : IsSquare b) (hcell : cellAt b x y = some c) :
    (getGroup b x y).stones.Nodup ∧
    (∀ p, p ∈ (getGroup b x y).stones ↔ reaches b c ⟨x, y⟩ p) ∧
    (∀ q, q ∈ (getGroup b x y).liberties ↔ inRange b q ∧
      cellAt b q.x q.y = none ∧ ∃ p, reaches b c ⟨x, y⟩ p ∧ Adj p q) := by
  have hin : inRange b ⟨x, y⟩ := inRange_of_cellAt_some hsq hcell
  have hseed : (⟨x, y⟩ : Point) ∈ allPos b := mem_allPos.mpr hin
  have hg : getGroup b x y =
      ⟨(getGroupAux b c (b.length * b.length) [⟨x, y⟩] {⟨x, y⟩} [] ∅).1,
       (getGroupAux b c (b.length * b.length) [⟨x, y⟩] {⟨x, y⟩} [] ∅).2⟩ := by
    rw [getGroup, hcell]
  obtain ⟨i1, i2, i3, i4, i5, i6⟩ := getGroupAux_spec b c ⟨x, y⟩
    (b.length * b.length) [⟨x, y⟩] [] {⟨x, y⟩} ∅
    (by intro p; simp)
    (List.nodup_singleton _) List.nodup_nil
    (by intro p hp; exact absurd hp (List.not_mem_nil p))
    (by intro p hp
        rw [Finset.mem_singleton] at hp
        subst hp
        exact ⟨hin, hcell⟩)
    (by intro p hp
        rw [Finset.mem_singleton] at hp
        subst hp
        exact Relation.ReflTransGen.refl)
    (by intro p hp; exact absurd hp (List.not_mem_nil p))
    (by intro q hq; exact absurd hq (Finset.not_mem_empty q))
    (by simp only [Finset.card_singleton, allPos_card, List.length_singleton]
        have h1 : 1 ≤ (allPos b).card := Finset.card_pos.mpr ⟨_, hseed⟩
        rw [allPos_card] at h1
        omega)
  have hstones : ∀ p, reaches b c ⟨x, y⟩ p →
      p ∈ (getGroupAux b c (b.length * b.length) [⟨x, y⟩] {⟨x, y⟩} [] ∅).1 := by
    intro p hp
    induction hp with
    | refl => exact i3 _ (List.mem_singleton.mpr rfl)
    | tail hsm hstep ihp => exact (i5 _ ihp _ hstep.1 hstep.2.1).2 hstep.2.2
  rw [hg]
  refine ⟨i1, ?_, ?_⟩
  · intro p
    constructor
    · intro hp
      exact (i4 p hp).2.2
    · exact hstones p
  · intro q
    constructor
    · intro hq
      obtain ⟨h1, h2, p, hp, hadj⟩ := i6 q hq
      exact ⟨h1, h2, p, (i4 p hp).2.2, hadj⟩
    · rintro ⟨hinq, heq, p, hrp, hadj⟩
      exact (i5 p (hstones p hrp) q hadj hinq).1 heq

theorem getGroup_stones_iff {b : BoardState} {x y : Nat} {c : Player}
    (hsq : IsSquare b) (hcell : cellAt b x y = some c) (p : Point) :
    p ∈ (getGroup b x y).stones ↔ reaches b c ⟨x, y⟩ p :=
  (getGroup_spec hsq hcell).2.1 p

theorem getGroup_liberties_iff {b : BoardState} {x y : Nat} {c : Player}
    (hsq : IsSquare b) (hcell : cellAt b x y = some c) (q : Point) :
    q ∈ (getGroup b x y).liberties ↔ inRange b q ∧
      cellAt b q.x q.y = none ∧ ∃ p, reaches b c ⟨x, y⟩ p ∧ Adj p q :=
  (getGroup_spec hsq hcell).2.2 q

theorem getGroup_stones_nodup {b : BoardState} {x y : Nat} {c : Player}
    (hsq : IsSquare b) (hcell : cellAt b x y = some c) :
    (getGroup b x y).stones.Nodup :=
  (getGroup_spec hsq hcell).1

theorem reaches_mono {b b' : BoardState} {c : Player} {s t : Point}
    (hlen : b.length = b'.length)
    (hcell : ∀ q : Point, cellAt b q.x q.y = some c →
      cellAt b' q.x q.y = some c)
    (h : reaches b c s t) : reaches b' c s t := by
  induction h with
  | refl => exact Relation.ReflTransGen.refl
  | tail _ hstep ih =>
    refine Relation.ReflTransGen.tail ih
      ⟨hstep.1, ?_, hcell _ hstep.2.2⟩
    have := hstep.2.1
    rw [inRange] at this ⊢
    omega

theorem mem_deadListOf {deadStones : Finset Point} {p : Point} :
    p ∈ deadListOf deadStones ↔ p ∈ deadStones :=
  Finset.mem_sort _

theorem deadListOf_nodup (deadStones : Finset Point) :
    (deadListOf deadStones).Nodup :=
  Finset.sort_nodup _ _

/-! ### How `attemptMove` dispatches on its input -/

theorem jsRead_y_out {b : BoardState} {x y : Int}
    (hy : y < 0 ∨ (b.length : Int) ≤ y) : jsRead b x y = none := by
  rw [jsRead, if_neg (by omega)]

theorem attemptMove_y_out {b : BoardState} {x y : Int} {p : Player}
    (hy : y < 0 ∨ (b.length : Int) ≤ y) :
    attemptMove b x y p = Except.error () := by
  rw [attemptMove, jsRead_y_out hy]

theorem jsRead_x_out {b : BoardState} (hsq : IsSquare b) {x y : Int}
    (hy : 0 ≤ y ∧ y < (b.length : Int)) (hx : x < 0 ∨ (b.length : Int) ≤ x) :
    jsRead b x y = some JsCell.undef := by
  have hyN : y.toNat < b.length := by omega
  have hrl : (b.getD y.toNat []).length = b.length := by
    rw [getD_eq_getElem hyN]
    exact hsq _ (b.getElem_mem hyN)
  rw [jsRead, if_pos hy]
  show (if 0 ≤ x ∧ x < ((b.getD y.toNat []).length : Int) then _ else _) = _
  rw [if_neg (by rw [hrl]; omega)]

theorem attemptMove_x_out {b : BoardState} (hsq : IsSquare b) {x y : Int}
    {p : Player}
    (hy : 0 ≤ y ∧ y < (b.length : Int)) (hx : x < 0 ∨ (b.length : Int) ≤ x) :
    attemptMove b x y p = Except.ok
      { valid := false, newBoard := none, capturedCount := none,
        message := some "Point is already occupied." } := by
  rw [attemptMove, jsRead_x_out hsq hy hx]
  rfl

theorem jsRead_inRange {b : BoardState} (hsq : IsSquare b) {x y : Nat}
    (hx : x < b.length) (hy : y < b.length) :
    jsRead b (x : Int) (y : Int) =
      some (match cellAt b x y with
            | none => JsCell.nullv
            | some c => JsCell.stone c) := by
  have hyN : ((y : Int)).toNat = y := Int.toNat_natCast y
  have hxN : ((x : Int)).toNat = x := Int.toNat_natCast x
  have hrow : b.getD ((y : Int)).toNat [] = b[y] := by
    rw [hyN]
    exact getD_eq_getElem hy
  have hrl : b[y].length = b.length := hsq _ (b.getElem_mem hy)
  have hx' : x < b[y].length := by omega
  have hgd : b[y].getD x none = b[y][x] := by
    rw [List.getD_eq_getElem?_getD, List.getElem?_eq_getElem hx']
    rfl
  have hcellAt : cellAt b x y = b[y][x] := by
    rw [cellAt_of_lt x hy, List.getElem?_eq_getElem hx']
    rfl
  rw [jsRead, if_pos (by omega)]
  show (if 0 ≤ (x : Int) ∧ (x : Int) <
      ((b.getD ((y : Int)).toNat []).length : Int) then _ else _) = _
  rw [hrow, if_pos (by rw [hrl]; omega), hxN, hgd, hcellAt]
  cases b[y][x] <;> rfl

theorem attemptMove_inRange_occupied {b : BoardState} (hsq : IsSquare b)
    {x y : Nat} {c : Player} {p : Player}
    (hx : x < b.length) (hy : y < b.length)
    (hc : cellAt b x y = some c) :
    attemptMove b (x : Int) (y : Int) p = Except.ok
      { valid := false, newBoard := none, capturedCount := none,
        message := some "Point is already occupied." } := by
  rw [attemptMove, jsRead_inRange hsq hx hy, hc]
  rfl

theorem attemptMove_inRange_empty {b : BoardState} (hsq : IsSquare b)
    {x y : Nat} {p : Player}
    (hx : x < b.length) (hy : y < b.length)
    (hemp : cellAt b x y = none) :
    attemptMove b (x : Int) (y : Int) p =
      Except.ok (attemptMoveCore b x y p) := by
  rw [attemptMove, jsRead_inRange hsq hx hy, hemp]
  show Except.ok (attemptMoveCore b ((x : Int)).toNat ((y : Int)).toNat p) = _
  rw [Int.toNat_natCast, Int.toNat_natCast]

/-! ### Capture resolution -/

theorem Point.eta (p : Point) : (⟨p.x, p.y⟩ : Point) = p := rfl

theorem cellAt_none_of_notInRange {b : BoardState} (hsq : IsSquare b)
    {u w : Nat} (h : ¬ inRange b ⟨u, w⟩) : cellAt b u w = none := by
  rw [inRange, not_and_or] at h
  by_cases hw : w < b.length
  · rcases h with h | h
    · rw [cellAt_of_lt u hw, List.getElem?_eq_none]
      · rfl
      · rw [hsq _ (b.getElem_mem hw)]
        exact le_of_not_lt h
    · exact absurd hw h
  · exact cellAt_of_le u (le_of_not_lt hw)

theorem Saturated.reaches_mem {b : BoardState} {c : Player}
    {S : Finset Point} (hS : Saturated b c S) {s t : Point}
    (hs : s ∈ S) (h : reaches b c s t) : t ∈ S := by
  induction h with
  | refl => exact hs
  | tail hsm hstep ih => exact hS.2 _ ih _ hstep

/-- The inner `group.stones.forEach` of the capture loop: blank every
listed point, adding one to the counter per point. -/
theorem clearFold_spec (l : List Point) :
    ∀ (b : BoardState) (c0 : Nat), IsSquare b →
    (l.foldl (fun bc s => (setCell bc.1 s.x s.y none, bc.2 + 1))
      (b, c0)).2 = c0 + l.length ∧
    (l.foldl (fun bc s => (setCell bc.1 s.x s.y none, bc.2 + 1))
      (b, c0)).1.length = b.length ∧
    IsSquare (l.foldl (fun bc s => (setCell bc.1 s.x s.y none, bc.2 + 1))
      (b, c0)).1 ∧
    (∀ u w : Nat,
      cellAt (l.foldl (fun bc s => (setCell bc.1 s.x s.y none, bc.2 + 1))
        (b, c0)).1 u w =
      if (⟨u, w⟩ : Point) ∈ l then none else cellAt b u w) := by
  induction l with
  | nil =>
    intro b c0 hsq
    exact ⟨rfl, rfl, hsq, fun u w => by simp⟩
  | cons s l ih =>
    intro b c0 hsq
    rw [List.foldl_cons]
    obtain ⟨ih1, ih2, ih3, ih4⟩ :=
      ih (setCell b s.x s.y none) (c0 + 1) (hsq.setCell _ _ _)
    refine ⟨?_, ?_, ih3, ?_⟩
    · rw [ih1, List.length_cons]
      omega
    · rw [ih2, setCell_length]
    · intro u w
      rw [ih4 u w, cellAt_setCell hsq]
      by_cases hl : (⟨u, w⟩ : Point) ∈ l
      · rw [if_pos hl, if_pos (List.mem_cons_of_mem _ hl)]
      · rw [if_neg hl]
        by_cases hs : s = (⟨u, w⟩ : Point)
        · have hmem : (⟨u, w⟩ : Point) ∈ s :: l :=
            List.mem_cons.mpr (Or.inl hs.symm)
          refine Eq.trans ?_ (if_pos hmem).symm
          by_cases hr : s.x < b.length ∧ s.y < b.length
          · exact if_pos ⟨by rw [hs], by rw [hs], hr.1, hr.2⟩
          · rw [if_neg (by tauto)]
            exact cellAt_none_of_notInRange hsq (by
              intro hI
              apply hr
              rw [hs]
              exact hI)
        · have hmem : (⟨u, w⟩ : Point) ∉ s :: l := by
            intro hmm
            rcases List.mem_cons.mp hmm with h | h
            · exact hs h.symm
            · exact hl h
          rw [if_neg hmem]
          exact if_neg (by
            rintro ⟨h1, h2, -, -⟩
            exact hs (by rw [← Point.eta s, h1, h2]))

/-- Removing a saturated set `S` (a union of whole groups) from the board
neither changes the reachable set of a surviving stone nor lets it enter
`S`. -/
theorem reaches_clear_iff {b1 bcur : BoardState} {o : Player}
    {S : Finset Point}
    (hlen : bcur.length = b1.length)
    (hpt : ∀ u w : Nat, cellAt bcur u w =
      if (⟨u, w⟩ : Point) ∈ S then none else cellAt b1 u w)
    (hS : Saturated b1 o S)
    {n : Point} (hn : cellAt b1 n.x n.y = some o) (hin : inRange b1 n)
    (hnS : n ∉ S) :
    ∀ t : Point, (reaches bcur o n t ↔ reaches b1 o n t) ∧
      (reaches b1 o n t → t ∉ S) := by
  have hcellcur : ∀ q : Point, cellAt bcur q.x q.y = some o →
      q ∉ S ∧ cellAt b1 q.x q.y = some o := by
    intro q hq
    rw [hpt q.x q.y, Point.eta] at hq
    by_cases hqS : q ∈ S
    · rw [if_pos hqS] at hq
      cases hq
    · rw [if_neg hqS] at hq
      exact ⟨hqS, hq⟩
  have hrange : ∀ q : Point, inRange bcur q ↔ inRange b1 q := by
    intro q
    rw [inRange, inRange, hlen]
  have hfwd : ∀ t : Point, reaches bcur o n t → reaches b1 o n t := by
    intro t h
    induction h with
    | refl => exact Relation.ReflTransGen.refl
    | tail hsm hstep ih =>
      obtain ⟨htS, hc1⟩ := hcellcur _ hstep.2.2
      exact Relation.ReflTransGen.tail ih
        ⟨hstep.1, (hrange _).mp hstep.2.1, hc1⟩
  have hgen : ∀ t : Point, reaches b1 o n t →
      t ∉ S ∧ reaches bcur o n t := by
    intro t ht
    induction ht with
    | refl => exact ⟨hnS, Relation.ReflTransGen.refl⟩
    | tail hsm hstep ih =>
      rename_i m t'
      have hmin : inRange b1 m := reaches_inRange hin hsm
      have hmc : cellAt b1 m.x m.y = some o := reaches_cell hn hsm
      have ht'S : t' ∉ S := by
        intro ht'S
        exact ih.1 (hS.2 _ ht'S m ⟨hstep.1.symm, hmin, hmc⟩)
      have hcur : cellAt bcur t'.x t'.y = some o := by
        rw [hpt t'.x t'.y, Point.eta, if_neg ht'S]
        exact hstep.2.2
      exact ⟨ht'S, Relation.ReflTransGen.tail ih.2
        ⟨hstep.1, (hrange _).mpr hstep.2.1, hcur⟩⟩
  exact fun t => ⟨⟨hfwd t, fun h => (hgen t h).2⟩, fun h => (hgen t h).1⟩

/-- Removing a saturated set preserves whether a surviving stone's group
has a liberty. -/
theorem hasLib_clear_iff {b1 bcur : BoardState} {o : Player}
    {S : Finset Point}
    (hlen : bcur.length = b1.length)
    (hpt : ∀ u w : Nat, cellAt bcur u w =
      if (⟨u, w⟩ : Point) ∈ S then none else cellAt b1 u w)
    (hS : Saturated b1 o S)
    {n : Point} (hn : cellAt b1 n.x n.y = some o) (hin : inRange b1 n)
    (hnS : n ∉ S) :
    HasLib bcur o n ↔ HasLib b1 o n := by
  have hreach := reaches_clear_iff hlen hpt hS hn hin hnS
  have hrange : ∀ q : Point, inRange bcur q ↔ inRange b1 q := by
    intro q
    rw [inRange, inRange, hlen]
  constructor
  · rintro ⟨l, hl1, hl2, t, ht, hadj⟩
    have ht1 : reaches b1 o n t := (hreach t).1.mp ht
    have htS : t ∉ S := (hreach t).2 ht1
    have hlS : l ∉ S := by
      intro hlS
      have htin : inRange b1 t := reaches_inRange hin ht1
      have htc : cellAt b1 t.x t.y = some o := reaches_cell hn ht1
      exact htS (hS.2 _ hlS t ⟨hadj.symm, htin, htc⟩)
    have hl2' : cellAt b1 l.x l.y = none := by
      rw [hpt l.x l.y, Point.eta, if_neg hlS] at hl2
      exact hl2
    exact ⟨l, (hrange _).mp hl1, hl2', t, ht1, hadj⟩
  · rintro ⟨l, hl1, hl2, t, ht, hadj⟩
    have hlS : l ∉ S := by
      intro hlS
      rw [(hS.1 _ hlS).2] at hl2
      cases hl2
    have hl2' : cellAt bcur l.x l.y = none := by
      rw [hpt l.x l.y, Point.eta, if_neg hlS]
      exact hl2
    exact ⟨l, (hrange _).mpr hl1, hl2', t, (hreach t).1.mpr ht, hadj⟩

/-- The zero-liberty check of the capture loop, in terms of `HasLib`. -/
theorem getGroup_card_zero_iff {b : BoardState} {x y : Nat} {c : Player}
    (hsq : IsSquare b) (hc : cellAt b x y = some c) :
    (getGroup b x y).liberties.card = 0 ↔ ¬ HasLib b c ⟨x, y⟩ := by
  rw [Finset.card_eq_zero, Finset.eq_empty_iff_forall_not_mem]
  constructor
  · rintro h ⟨l, hl1, hl2, t, ht, hadj⟩
    exact h l ((getGroup_liberties_iff hsq hc l).mpr ⟨hl1, hl2, t, ht, hadj⟩)
  · intro h l hl
    obtain ⟨hl1, hl2, t, ht, hadj⟩ := (getGroup_liberties_iff hsq hc l).mp hl
    exact h ⟨l, hl1, hl2, t, ht, hadj⟩

theorem cStep_capture {o : Player} {bcur : BoardState} {cnt : Nat}
    {n : Point} (hcn : cellAt bcur n.x n.y = some o)
    (hcard : (getGroup bcur n.x n.y).liberties.card = 0) :
    cStep o (bcur, cnt) n =
      (getGroup bcur n.x n.y).stones.foldl
        (fun bc s => (setCell bc.1 s.x s.y none, bc.2 + 1)) (bcur, cnt) := by
  simp only [cStep]
  rw [if_pos hcn, if_pos hcard]

theorem cStep_skip_libs {o : Player} {bcur : BoardState} {cnt : Nat}
    {n : Point} (hcn : cellAt bcur n.x n.y = some o)
    (hcard : ¬ (getGroup bcur n.x n.y).liberties.card = 0) :
    cStep o (bcur, cnt) n = (bcur, cnt) := by
  simp only [cStep]
  rw [if_pos hcn, if_neg hcard]

theorem cStep_skip_cell {o : Player} {bcur : BoardState} {cnt : Nat}
    {n : Point} (hcn : ¬ cellAt bcur n.x n.y = some o) :
    cStep o (bcur, cnt) n = (bcur, cnt) := by
  simp only [cStep]
  rw [if_neg hcn]

/-- The capture loop of `attemptMove`, run from a board equal to `b1` with
a saturated set `S` removed, extends `S` to exactly the union of the
zero-liberty groups (on `b1`) seen at opponent-occupied neighbours, and
counts the removed stones. -/
theorem cFold_spec (b1 : BoardState) (o : Player) :
    ∀ ns : List Point, (∀ n ∈ ns, inRange b1 n) →
    ∀ (S : Finset Point) (bcur : BoardState) (cnt : Nat),
    bcur.length = b1.length → IsSquare bcur →
    (∀ u w : Nat, cellAt bcur u w =
      if (⟨u, w⟩ : Point) ∈ S then none else cellAt b1 u w) →
    Saturated b1 o S → cnt = S.card →
    ∃ S' : Finset Point,
      Saturated b1 o S' ∧ S ⊆ S' ∧
      (∀ q : Point, q ∈ S' ↔ q ∈ S ∨ ∃ n ∈ ns,
        cellAt b1 n.x n.y = some o ∧ ¬ HasLib b1 o n ∧ reaches b1 o n q) ∧
      (ns.foldl (cStep o) (bcur, cnt)).2 = S'.card ∧
      (ns.foldl (cStep o) (bcur, cnt)).1.length = b1.length ∧
      IsSquare (ns.foldl (cStep o) (bcur, cnt)).1 ∧
      (∀ u w : Nat, cellAt (ns.foldl (cStep o) (bcur, cnt)).1 u w =
        if (⟨u, w⟩ : Point) ∈ S' then none else cellAt b1 u w) := by
  intro ns
  induction ns with
  | nil =>
    intro hns S bcur cnt hlen hsq hpt hS hcnt
    exact ⟨S, hS, Finset.Subset.refl S, fun q => by simp,
      by rw [List.foldl_nil]; exact hcnt,
      by rw [List.foldl_nil]; exact hlen,
      by rw [List.foldl_nil]; exact hsq,
      fun u w => by rw [List.foldl_nil]; exact hpt u w⟩
  | cons n ns ih =>
    intro hns S bcur cnt hlen hsq hpt hS hcnt
    have hnin : inRange b1 n := hns n (List.mem_cons_self _ _)
    have hnsrest : ∀ m ∈ ns, inRange b1 m :=
      fun m hm => hns m (List.mem_cons_of_mem _ hm)
    rw [List.foldl_cons]
    by_cases hcn : cellAt bcur n.x n.y = some o
    · have hnS : n ∉ S := by
        intro h
        have hp := hpt n.x n.y
        rw [Point.eta, if_pos h] at hp
        rw [hp] at hcn
        cases hcn
      have hcb1 : cellAt b1 n.x n.y = some o := by
        have hp := hpt n.x n.y
        rw [Point.eta, if_neg hnS] at hp
        rw [← hp]
        exact hcn
      have hreach := reaches_clear_iff hlen hpt hS hcb1 hnin hnS
      have hlib := hasLib_clear_iff hlen hpt hS hcb1 hnin hnS
      have hcard0 : (getGroup bcur n.x n.y).liberties.card = 0 ↔
          ¬ HasLib b1 o n := by
        rw [getGroup_card_zero_iff hsq hcn]
        exact not_congr hlib
      by_cases hcap : (getGroup bcur n.x n.y).liberties.card = 0
      · have hnolib : ¬ HasLib b1 o n := hcard0.mp hcap
        rw [cStep_capture hcn hcap]
        obtain ⟨hc1, hc2, hc3, hc4⟩ :=
          clearFold_spec (getGroup bcur n.x n.y).stones bcur cnt hsq
        have hstones : ∀ q : Point,
            q ∈ (getGroup bcur n.x n.y).stones ↔ reaches bcur o n q :=
          fun q => getGroup_stones_iff hsq hcn q
        have hnodup : (getGroup bcur n.x n.y).stones.Nodup :=
          getGroup_stones_nodup hsq hcn
        have hcomp_mem : ∀ q : Point,
            q ∈ (getGroup bcur n.x n.y).stones.toFinset ↔
            reaches b1 o n q ∧ q ∉ S := by
          intro q
          rw [List.mem_toFinset, hstones q]
          constructor
          · intro h
            have h1 := (hreach q).1.mp h
            exact ⟨h1, (hreach q).2 h1⟩
          · intro h
            exact (hreach q).1.mpr h.1
        have hdisj : ∀ q ∈ (getGroup bcur n.x n.y).stones.toFinset, q ∉ S :=
          fun q hq => ((hcomp_mem q).mp hq).2
        have hS2 : Saturated b1 o (S ∪ (getGroup bcur n.x n.y).stones.toFinset) := by
          constructor
          · intro s hs
            rcases Finset.mem_union.mp hs with h | h
            · exact hS.1 s h
            · have hr := ((hcomp_mem s).mp h).1
              exact ⟨reaches_inRange hnin hr, reaches_cell hcb1 hr⟩
          · intro s hs t hstep
            rcases Finset.mem_union.mp hs with h | h
            · exact Finset.mem_union_left _ (hS.2 s h t hstep)
            · have hr := ((hcomp_mem s).mp h).1
              have hrt : reaches b1 o n t := Relation.ReflTransGen.tail hr hstep
              by_cases htS : t ∈ S
              · exact Finset.mem_union_left _ htS
              · exact Finset.mem_union_right _ ((hcomp_mem t).mpr ⟨hrt, htS⟩)
        have hcard2 : (S ∪ (getGroup bcur n.x n.y).stones.toFinset).card =
            S.card + (getGroup bcur n.x n.y).stones.length := by
          rw [Finset.card_union_of_disjoint
            (Finset.disjoint_right.mpr fun q hq => hdisj q hq),
            List.toFinset_card_of_nodup hnodup]
        have hpt2 : ∀ u w : Nat,
            cellAt ((getGroup bcur n.x n.y).stones.foldl
              (fun bc s => (setCell bc.1 s.x s.y none, bc.2 + 1))
              (bcur, cnt)).1 u w =
            if (⟨u, w⟩ : Point) ∈
                S ∪ (getGroup bcur n.x n.y).stones.toFinset then none
            else cellAt b1 u w := by
          intro u w
          rw [hc4 u w]
          by_cases hq : (⟨u, w⟩ : Point) ∈ (getGroup bcur n.x n.y).stones
          · rw [if_pos hq, if_pos
              (Finset.mem_union_right _ (List.mem_toFinset.mpr hq))]
          · rw [if_neg hq, hpt u w]
            by_cases hqS : (⟨u, w⟩ : Point) ∈ S
            · rw [if_pos hqS, if_pos (Finset.mem_union_left _ hqS)]
            · rw [if_neg hqS, if_neg (by
                intro hq2
                rcases Finset.mem_union.mp hq2 with h | h
                · exact hqS h
                · exact hq (List.mem_toFinset.mp h))]
        obtain ⟨S', hS'sat, hS'sub, hS'char, hS'cnt, hS'len, hS'sq, hS'pt⟩ :=
          ih hnsrest (S ∪ (getGroup bcur n.x n.y).stones.toFinset)
            ((getGroup bcur n.x n.y).stones.foldl
              (fun bc s => (setCell bc.1 s.x s.y none, bc.2 + 1))
              (bcur, cnt)).1
            ((getGroup bcur n.x n.y).stones.foldl
              (fun bc s => (setCell bc.1 s.x s.y none, bc.2 + 1))
              (bcur, cnt)).2
            (by rw [hc2, hlen]) hc3 hpt2 hS2 (by rw [hc1, hcnt, hcard2])
        refine ⟨S', hS'sat,
          fun q hq => hS'sub (Finset.mem_union_left _ hq),
          ?_, hS'cnt, hS'len, hS'sq, hS'pt⟩
        intro q
        rw [hS'char q]
        constructor
        · rintro (hq | ⟨m, hm, hmc, hml, hmr⟩)
          · rcases Finset.mem_union.mp hq with h | h
            · exact Or.inl h
            · exact Or.inr ⟨n, List.mem_cons_self _ _, hcb1, hnolib,
                ((hcomp_mem q).mp h).1⟩
          · exact Or.inr ⟨m, List.mem_cons_of_mem _ hm, hmc, hml, hmr⟩
        · rintro (hq | ⟨m, hm, hmc, hml, hmr⟩)
          · exact Or.inl (Finset.mem_union_left _ hq)
          · rcases List.mem_cons.mp hm with rfl | hm'
            · by_cases hqS : q ∈ S
              · exact Or.inl (Finset.mem_union_left _ hqS)
              · exact Or.inl (Finset.mem_union_right _
                  ((hcomp_mem q).mpr ⟨hmr, hqS⟩))
            · exact Or.inr ⟨m, hm', hmc, hml, hmr⟩
      · have hlibn : HasLib b1 o n := by
          by_contra h
          exact hcap (hcard0.mpr h)
        rw [cStep_skip_libs hcn hcap]
        obtain ⟨S', hS'sat, hS'sub, hS'char, hS'cnt, hS'len, hS'sq, hS'pt⟩ :=
          ih hnsrest S bcur cnt hlen hsq hpt hS hcnt
        refine ⟨S', hS'sat, hS'sub, ?_, hS'cnt, hS'len, hS'sq, hS'pt⟩
        intro q
        rw [hS'char q]
        constructor
        · rintro (h | ⟨m, hm, hmc, hml, hmr⟩)
          · exact Or.inl h
          · exact Or.inr ⟨m, List.mem_cons_of_mem _ hm, hmc, hml, hmr⟩
        · rintro (h | ⟨m, hm, hmc, hml, hmr⟩)
          · exact Or.inl h
          · rcases List.mem_cons.mp hm with rfl | hm'
            · exact absurd hlibn hml
            · exact Or.inr ⟨m, hm', hmc, hml, hmr⟩
    · rw [cStep_skip_cell hcn]
      obtain ⟨S', hS'sat, hS'sub, hS'char, hS'cnt, hS'len, hS'sq, hS'pt⟩ :=
        ih hnsrest S bcur cnt hlen hsq hpt hS hcnt
      refine ⟨S', hS'sat, hS'sub, ?_, hS'cnt, hS'len, hS'sq, hS'pt⟩
      intro q
      rw [hS'char q]
      constructor
      · rintro (h | ⟨m, hm, hmc, hml, hmr⟩)
        · exact Or.inl h
        · exact Or.inr ⟨m, List.mem_cons_of_mem _ hm, hmc, hml, hmr⟩
      · rintro (h | ⟨m, hm, hmc, hml, hmr⟩)
        · exact Or.inl h
        · rcases List.mem_cons.mp hm with rfl | hm'
          · have hmS : m ∈ S := by
              by_contra hmS
              have hp := hpt m.x m.y
              rw [Point.eta, if_neg hmS] at hp
              rw [hp] at hcn
              exact hcn hmc
            exact Or.inl (hS.reaches_mem hmS hmr)
          · exact Or.inr ⟨m, hm', hmc, hml, hmr⟩

theorem Player.opp_ne (p : Player) : p.opp ≠ p := by
  cases p <;> decide

/-- The capture loop characterised from the fresh post-placement board. -/
theorem resolveCaptures_spec (b1 : BoardState) (o : Player) (x y : Nat)
    (hsq1 : IsSquare b1) :
    ∃ S' : Finset Point,
      Saturated b1 o S' ∧
      (∀ q : Point, q ∈ S' ↔ ∃ n ∈ getNeighbors b1 x y,
        cellAt b1 n.x n.y = some o ∧ ¬ HasLib b1 o n ∧ reaches b1 o n q) ∧
      (resolveCaptures b1 x y o).2 = S'.card ∧
      (resolveCaptures b1 x y o).1.length = b1.length ∧
      IsSquare (resolveCaptures b1 x y o).1 ∧
      (∀ u w : Nat, cellAt (resolveCaptures b1 x y o).1 u w =
        if (⟨u, w⟩ : Point) ∈ S' then none else cellAt b1 u w) := by
  obtain ⟨S', h1, h2, h3, h4, h5, h6, h7⟩ :=
    cFold_spec b1 o (getNeighbors b1 x y)
      (fun n hn => (mem_getNeighbors.mp hn).2)
      ∅ b1 0 rfl hsq1 (fun u w => by simp)
      ⟨fun s hs => absurd hs (Finset.not_mem_empty s),
        fun s hs => absurd hs (Finset.not_mem_empty s)⟩
      (by simp)
  refine ⟨S', h1, ?_, h4, h5, h6, h7⟩
  intro q
  rw [h3 q]
  simp

/-- `attemptMoveCore` written out through `resolveCaptures`. -/
theorem attemptMoveCore_eq (b : BoardState) (x y : Nat) (p : Player) :
    attemptMoveCore b x y p =
      if (getGroup (resolveCaptures (setCell b x y (some p)) x y p.opp).1
          x y).liberties.card = 0 then
        { valid := false, newBoard := none, capturedCount := none,
          message := some "Suicide move is not allowed." }
      else
        { valid := true,
          newBoard :=
            some (resolveCaptures (setCell b x y (some p)) x y p.opp).1,
          capturedCount :=
            some (resolveCaptures (setCell b x y (some p)) x y p.opp).2,
          message := none } := rfl

/-- A successfully validated move can only arise from an in-range empty
target, and the result is `attemptMoveCore` there. -/
theorem attemptMove_ok_elim {b : BoardState} (hsq : IsSquare b) {x y : Int}
    {p : Player} {r : MoveResult}
    (hok : attemptMove b x y p = Except.ok r) (hvalid : r.valid = true) :
    ∃ (xn yn : Nat), x = (xn : Int) ∧ y = (yn : Int) ∧ xn < b.length ∧
      yn < b.length ∧ cellAt b xn yn = none ∧
      r = attemptMoveCore b xn yn p := by
  cases hjs : jsRead b x y with
  | none =>
    rw [attemptMove, hjs] at hok
    cases hok
  | some v =>
    rw [attemptMove, hjs] at hok
    dsimp only at hok
    by_cases hv : v = JsCell.nullv
    · subst hv
      rw [if_neg (by simp)] at hok
      injection hok with h
      rw [jsRead] at hjs
      by_cases hy : 0 ≤ y ∧ y < (b.length : Int)
      · rw [if_pos hy] at hjs
        have hyn : y.toNat < b.length := by omega
        have hrow : b.getD y.toNat [] = b[y.toNat] := getD_eq_getElem hyn
        have hrl : b[y.toNat].length = b.length :=
          hsq _ (b.getElem_mem hyn)
        by_cases hx : 0 ≤ x ∧ x < ((b.getD y.toNat []).length : Int)
        · rw [if_pos hx] at hjs
          rw [hrow, hrl] at hx
          have hxn : x.toNat < b.length := by omega
          have hxrow : x.toNat < b[y.toNat].length := by omega
          have hgd : (b.getD y.toNat []).getD x.toNat none =
              b[y.toNat][x.toNat] := by
            rw [hrow, List.getD_eq_getElem?_getD,
              List.getElem?_eq_getElem hxrow]
            rfl
          rw [hgd] at hjs
          cases hcell : b[y.toNat][x.toNat] with
          | none =>
            refine ⟨x.toNat, y.toNat, by omega, by omega, hxn, hyn, ?_, h.symm⟩
            rw [cellAt_of_lt x.toNat hyn, List.getElem?_eq_getElem hxrow,
              hcell]
            rfl
          | some c =>
            rw [hcell] at hjs
            cases hjs
        · rw [if_neg hx] at hjs
          cases hjs
      · rw [if_neg hy] at hjs
        cases hjs
    · rw [if_pos hv] at hok
      injection hok with h
      rw [← h] at hvalid
      cases hvalid

/-! ### Scoring lemmas -/

theorem deadFold_counts (board : BoardState) :
    ∀ (l : List Point) (a1 a2 : Nat) (bacc : BoardState),
    (l.foldl (fun acc pos =>
      ((if cellAt board pos.x pos.y = some Player.black then acc.1 + 1
        else acc.1),
       (if cellAt board pos.x pos.y = some Player.white then acc.2.1 + 1
        else acc.2.1),
       setCell acc.2.2 pos.x pos.y none)) (a1, a2, bacc)).1 =
      a1 + l.countP (fun q => cellAt board q.x q.y = some Player.black) ∧
    (l.foldl (fun acc pos =>
      ((if cellAt board pos.x pos.y = some Player.black then acc.1 + 1
        else acc.1),
       (if cellAt board pos.x pos.y = some Player.white then acc.2.1 + 1
        else acc.2.1),
       setCell acc.2.2 pos.x pos.y none)) (a1, a2, bacc)).2.1 =
      a2 + l.countP (fun q => cellAt board q.x q.y = some Player.white) := by
  intro l
  induction l with
  | nil =>
    intro a1 a2 bacc
    simp
  | cons s l ih =>
    intro a1 a2 bacc
    rw [List.foldl_cons]
    obtain ⟨ih1, ih2⟩ := ih
      (if cellAt board s.x s.y = some Player.black then a1 + 1 else a1)
      (if cellAt board s.x s.y = some Player.white then a2 + 1 else a2)
      (setCell bacc s.x s.y none)
    constructor
    · rw [ih1, List.countP_cons]
      by_cases hb : cellAt board s.x s.y = some Player.black
      · rw [if_pos hb]
        simp [hb]
        omega
      · rw [if_neg hb]
        simp [hb]
    · rw [ih2, List.countP_cons]
      by_cases hw : cellAt board s.x s.y = some Player.white
      · rw [if_pos hw]
        simp [hw]
        omega
      · rw [if_neg hw]
        simp [hw]

theorem countP_deadListOf (s : Finset Point) (P : Point → Prop)
    [DecidablePred P] :
    (deadListOf s).countP (fun q => P q) = (s.filter P).card := by
  have hperm : List.Perm (deadListOf s) s.toList :=
    Finset.sort_perm_toList _ _
  rw [hperm.countP_eq]
  have h1 : (s.toList.countP (fun q => P q) : Nat) =
      Multiset.countP P (↑s.toList : Multiset Point) := by
    rw [Multiset.coe_countP]
  rw [h1, Finset.coe_toList]
  rw [Multiset.countP_eq_card_filter]
  rfl

theorem winner_ite (tb tw : ℚ) (w : Winner)
    (hw : w = if tb > tw then Winner.black else Winner.white) :
    (w = Winner.black ↔ tw < tb) ∧
    (w ≠ Winner.black → w = Winner.white) ∧ w ≠ Winner.draw := by
  subst hw
  by_cases h : tb > tw
  · rw [if_pos h]
    exact ⟨⟨fun _ => h, fun _ => rfl⟩, fun hne => absurd rfl hne,
      fun hd => Winner.noConfusion hd⟩
  · rw [if_neg h]
    exact ⟨⟨fun hbw => Winner.noConfusion hbw, fun hlt => absurd hlt h⟩,
      fun _ => rfl, fun hd => Winner.noConfusion hd⟩

theorem emptyReaches_inRange {b : BoardState} {s t : Point}
    (hs : inRange b s) (hse : cellAt b s.x s.y = none)
    (h : emptyReaches b s t) : inRange b t ∧ cellAt b t.x t.y = none := by
  induction h with
  | refl => exact ⟨hs, hse⟩
  | tail _ hstep _ => exact ⟨hstep.2.1, hstep.2.2⟩

theorem emptyReaches_symm {b : BoardState} {s t : Point}
    (hs : inRange b s) (hse : cellAt b s.x s.y = none)
    (h : emptyReaches b s t) : emptyReaches b t s := by
  induction h with
  | refl => exact Relation.ReflTransGen.refl
  | tail hsm hstep ih =>
    exact Relation.ReflTransGen.head
      ⟨hstep.1.symm, (emptyReaches_inRange hs hse hsm).1,
        (emptyReaches_inRange hs hse hsm).2⟩ ih

theorem EmptySaturated.mem_of_reaches {b : BoardState} {V : Finset Point}
    (hV : EmptySaturated b V) {q t : Point} (hq : q ∈ V)
    (h : emptyReaches b q t) : t ∈ V := by
  induction h with
  | refl => exact hq
  | tail _ hstep ih => exact (hV _ ih).2.2 _ hstep

theorem touches_congr {b : BoardState} {p q : Point}
    (hp : inRange b p) (hpe : cellAt b p.x p.y = none)
    (h : emptyReaches b p q) (c : Player) :
    touches b q c ↔ touches b p c := by
  constructor
  · rintro ⟨u, hu, r, har, hrc⟩
    exact ⟨u, Relation.ReflTransGen.trans h hu, r, har, hrc⟩
  · rintro ⟨u, hu, r, har, hrc⟩
    exact ⟨u, Relation.ReflTransGen.trans (emptyReaches_symm hp hpe h) hu,
      r, har, hrc⟩

/-- Characterisation of one full pass of the neighbour loop of the
territory flood fill. -/
theorem rStep_fold (b : BoardState) (ns : List Point) :
    ∀ (q reg : List Point) (vis : Finset Point) (tch : Finset Player),
    ∃ nw : List Point,
      (ns.foldl (rStep b) (q, vis, reg, tch)).1 = q ++ nw ∧
      (ns.foldl (rStep b) (q, vis, reg, tch)).2.1 = vis ∪ nw.toFinset ∧
      (ns.foldl (rStep b) (q, vis, reg, tch)).2.2.1 = reg ++ nw ∧
      nw.Nodup ∧ (∀ p ∈ nw, p ∉ vis) ∧
      (∀ p ∈ nw, p ∈ ns ∧ cellAt b p.x p.y = none) ∧
      (∀ p ∈ ns, cellAt b p.x p.y = none → p ∈ vis ∨ p ∈ nw) ∧
      (∀ c : Player, c ∈ (ns.foldl (rStep b) (q, vis, reg, tch)).2.2.2 ↔
        c ∈ tch ∨ ∃ r ∈ ns, cellAt b r.x r.y = some c) := by
  induction ns with
  | nil =>
    intro q reg vis tch
    exact ⟨[], by simp, by simp, by simp, by simp, by simp, by simp,
      by simp, fun c => by simp⟩
  | cons n ns ih =>
    intro q reg vis tch
    rw [List.foldl_cons]
    cases hcell : cellAt b n.x n.y with
    | none =>
      by_cases hv : n ∈ vis
      · have hstep : rStep b (q, vis, reg, tch) n = (q, vis, reg, tch) := by
          rw [rStep, hcell]
          simp [hv]
        rw [hstep]
        obtain ⟨nw, h1, h2, h3, h4, h5, h6, h7, h8⟩ := ih q reg vis tch
        refine ⟨nw, h1, h2, h3, h4, h5, ?_, ?_, ?_⟩
        · intro p hp
          obtain ⟨hpn, hpc⟩ := h6 p hp
          exact ⟨List.mem_cons_of_mem _ hpn, hpc⟩
        · intro p hp hpc
          rcases List.mem_cons.mp hp with rfl | hp'
          · exact Or.inl hv
          · exact h7 p hp' hpc
        · intro c
          rw [h8 c]
          constructor
          · rintro (h | ⟨r, hr, hrc⟩)
            · exact Or.inl h
            · exact Or.inr ⟨r, List.mem_cons_of_mem _ hr, hrc⟩
          · rintro (h | ⟨r, hr, hrc⟩)
            · exact Or.inl h
            · rcases List.mem_cons.mp hr with rfl | hr'
              · rw [hcell] at hrc; cases hrc
              · exact Or.inr ⟨r, hr', hrc⟩
      · have hstep : rStep b (q, vis, reg, tch) n =
            (q ++ [n], insert n vis, reg ++ [n], tch) := by
          rw [rStep, hcell]
          simp [hv]
        rw [hstep]
        obtain ⟨nw, h1, h2, h3, h4, h5, h6, h7, h8⟩ :=
          ih (q ++ [n]) (reg ++ [n]) (insert n vis) tch
        have hnnw : n ∉ nw := fun hn => h5 n hn (Finset.mem_insert_self _ _)
        refine ⟨n :: nw, ?_, ?_, ?_, ?_, ?_, ?_, ?_, ?_⟩
        · rw [h1, List.append_assoc]
          rfl
        · rw [h2]
          ext p
          simp only [Finset.mem_union, Finset.mem_insert, List.mem_toFinset,
            List.mem_cons]
          tauto
        · rw [h3, List.append_assoc]
          rfl
        · exact List.nodup_cons.mpr ⟨hnnw, h4⟩
        · intro p hp
          rcases List.mem_cons.mp hp with rfl | hp'
          · exact hv
          · exact fun hpv => h5 p hp' (Finset.mem_insert_of_mem hpv)
        · intro p hp
          rcases List.mem_cons.mp hp with rfl | hp'
          · exact ⟨List.mem_cons_self _ _, hcell⟩
          · obtain ⟨hpn, hpc⟩ := h6 p hp'
            exact ⟨List.mem_cons_of_mem _ hpn, hpc⟩
        · intro p hp hpc
          rcases List.mem_cons.mp hp with rfl | hp'
          · exact Or.inr (List.mem_cons_self _ _)
          · rcases h7 p hp' hpc with h | h
            · rcases Finset.mem_insert.mp h with rfl | h'
              · exact Or.inr (List.mem_cons_self _ _)
              · exact Or.inl h'
            · exact Or.inr (List.mem_cons_of_mem _ h)
        · intro c
          rw [h8 c]
          constructor
          · rintro (h | ⟨r, hr, hrc⟩)
            · exact Or.inl h
            · exact Or.inr ⟨r, List.mem_cons_of_mem _ hr, hrc⟩
          · rintro (h | ⟨r, hr, hrc⟩)
            · exact Or.inl h
            · rcases List.mem_cons.mp hr with rfl | hr'
              · rw [hcell] at hrc; cases hrc
              · exact Or.inr ⟨r, hr', hrc⟩
    | some content =>
      have hstep : rStep b (q, vis, reg, tch) n =
          (q, vis, reg, insert content tch) := by
        rw [rStep, hcell]
      rw [hstep]
      obtain ⟨nw, h1, h2, h3, h4, h5, h6, h7, h8⟩ :=
        ih q reg vis (insert content tch)
      refine ⟨nw, h1, h2, h3, h4, h5, ?_, ?_, ?_⟩
      · intro p hp
        obtain ⟨hpn, hpc⟩ := h6 p hp
        exact ⟨List.mem_cons_of_mem _ hpn, hpc⟩
      · intro p hp hpc
        rcases List.mem_cons.mp hp with rfl | hp'
        · rw [hcell] at hpc; cases hpc
        · exact h7 p hp' hpc
      · intro c
        rw [h8 c, Finset.mem_insert]
        constructor
        · rintro ((rfl | h) | ⟨r, hr, hrc⟩)
          · exact Or.inr ⟨n, List.mem_cons_self _ _, hcell⟩
          · exact Or.inl h
          · exact Or.inr ⟨r, List.mem_cons_of_mem _ hr, hrc⟩
        · rintro (h | ⟨r, hr, hrc⟩)
          · exact Or.inl (Or.inr h)
          · rcases List.mem_cons.mp hr with rfl | hr'
            · rw [hcell] at hrc
              injection hrc with hc
              exact Or.inl (Or.inl hc.symm)
            · exact Or.inr ⟨r, hr', hrc⟩

/-- Invariant-carrying correctness of the territory flood-fill loop:
starting from any state satisfying the loop invariants with enough fuel,
the loop returns the region accumulated so far plus everything
empty-reachable from the queue, the visited set extended by exactly that
region, and the colours bordering it. -/
theorem regionFillAux_spec (b : BoardState) (seed : Point) (V0 : Finset Point)
    (hV0 : ∀ v ∈ V0, inRange b v ∧ cellAt b v.x v.y = none ∧
      ∀ t, emptyStep b v t → t ∈ V0) :
    ∀ (fuel : Nat) (queue region : List Point) (visited : Finset Point)
      (touching : Finset Player),
    (∀ p, p ∈ visited ↔ p ∈ V0 ∨ p ∈ region) →
    queue.Nodup → region.Nodup → (∀ p ∈ queue, p ∈ region) →
    (∀ p ∈ region, p ∉ V0) →
    (∀ p ∈ region, inRange b p ∧ cellAt b p.x p.y = none) →
    (∀ p ∈ region, emptyReaches b seed p) →
    (∀ p ∈ region, p ∉ queue → ∀ n : Point, Adj p n → inRange b n →
      (cellAt b n.x n.y = none → n ∈ visited) ∧
      (∀ c, cellAt b n.x n.y = some c → c ∈ touching)) →
    (∀ c ∈ touching, ∃ p ∈ region, ∃ r : Point, Adj p r ∧
      cellAt b r.x r.y = some c) →
    ((allPos b).card - visited.card) + queue.length ≤ fuel →
    (regionFillAux b fuel queue visited region touching).2.1.Nodup ∧
    (∀ p ∈ region,
      p ∈ (regionFillAux b fuel queue visited region touching).2.1) ∧
    (∀ p, p ∈ (regionFillAux b fuel queue visited region touching).1 ↔
      p ∈ V0 ∨ p ∈ (regionFillAux b fuel queue visited region touching).2.1) ∧
    (∀ p ∈ (regionFillAux b fuel queue visited region touching).2.1,
      p ∉ V0 ∧ inRange b p ∧ cellAt b p.x p.y = none ∧
      emptyReaches b seed p) ∧
    (∀ p ∈ (regionFillAux b fuel queue visited region touching).2.1,
      ∀ n : Point, Adj p n → inRange b n →
      (cellAt b n.x n.y = none →
        n ∈ (regionFillAux b fuel queue visited region touching).1) ∧
      (∀ c, cellAt b n.x n.y = some c →
        c ∈ (regionFillAux b fuel queue visited region touching).2.2)) ∧
    (∀ c ∈ (regionFillAux b fuel queue visited region touching).2.2,
      ∃ p ∈ (regionFillAux b fuel queue visited region touching).2.1,
      ∃ r : Point, Adj p r ∧ cellAt b r.x r.y = some c) := by
  intro fuel
  induction fuel with
  | zero =>
    intro queue region visited touching hvis hnq hnr hqsub hreg0 hcellr
      hreach hclosed htch hfuel
    have hqnil : queue = [] := List.length_eq_zero.mp (by omega)
    subst hqnil
    simp only [regionFillAux]
    refine ⟨hnr, fun p hp => hp, hvis, ?_, ?_, htch⟩
    · intro p hp
      exact ⟨hreg0 p hp, (hcellr p hp).1, (hcellr p hp).2, hreach p hp⟩
    · intro p hp n hadj hin
      exact hclosed p hp (List.not_mem_nil p) n hadj hin
  | succ fuel ih =>
    intro queue region visited touching hvis hnq hnr hqsub hreg0 hcellr
      hreach hclosed htch hfuel
    cases queue with
    | nil =>
      simp only [regionFillAux]
      refine ⟨hnr, fun p hp => hp, hvis, ?_, ?_, htch⟩
      · intro p hp
        exact ⟨hreg0 p hp, (hcellr p hp).1, (hcellr p hp).2, hreach p hp⟩
      · intro p hp n hadj hin
        exact hclosed p hp (List.not_mem_nil p) n hadj hin
    | cons current rest =>
      simp only [regionFillAux]
      have hrestnd : rest.Nodup := (List.nodup_cons.mp hnq).2
      have hcurnrest : current ∉ rest := (List.nodup_cons.mp hnq).1
      obtain ⟨nw, hf1, hf2, hf3, hfnd, hfnv, hfprop, hfcover, hftch⟩ :=
        rStep_fold b (getNeighbors b current.x current.y) rest region visited
          touching
      have hcur_reg : current ∈ region :=
        hqsub current (List.mem_cons_self _ _)
      obtain ⟨hcur_in, hcur_cell⟩ := hcellr current hcur_reg
      have hcur_reach := hreach current hcur_reg
      rw [hf1, hf2, hf3]
      have hnw_facts : ∀ p ∈ nw,
          Adj current p ∧ inRange b p ∧ cellAt b p.x p.y = none := by
        intro p hp
        obtain ⟨hpn, hpc⟩ := hfprop p hp
        have hm := mem_getNeighbors.mp hpn
        exact ⟨hm.1, hm.2, hpc⟩
      have hreg_vis : ∀ p ∈ region, p ∈ visited :=
        fun p hp => (hvis p).mpr (Or.inr hp)
      have hvis' : ∀ p, p ∈ visited ∪ nw.toFinset ↔
          p ∈ V0 ∨ p ∈ region ++ nw := by
        intro p
        simp only [Finset.mem_union, List.mem_toFinset, List.mem_append,
          hvis p]
        tauto
      have hnq' : (rest ++ nw).Nodup := by
        rw [List.nodup_append]
        exact ⟨hrestnd, hfnd, fun p hp hpnw =>
          hfnv p hpnw (hreg_vis p (hqsub p (List.mem_cons_of_mem _ hp)))⟩
      have hnr' : (region ++ nw).Nodup := by
        rw [List.nodup_append]
        exact ⟨hnr, hfnd, fun p hp hpnw => hfnv p hpnw (hreg_vis p hp)⟩
      have hqsub' : ∀ p ∈ rest ++ nw, p ∈ region ++ nw := by
        intro p hp
        rcases List.mem_append.mp hp with hp' | hp'
        · exact List.mem_append_left _ (hqsub p (List.mem_cons_of_mem _ hp'))
        · exact List.mem_append_right _ hp'
      have hreg0' : ∀ p ∈ region ++ nw, p ∉ V0 := by
        intro p hp
        rcases List.mem_append.mp hp with hp' | hp'
        · exact hreg0 p hp'
        · exact fun hpV => hfnv p hp' ((hvis p).mpr (Or.inl hpV))
      have hcellr' : ∀ p ∈ region ++ nw,
          inRange b p ∧ cellAt b p.x p.y = none := by
        intro p hp
        rcases List.mem_append.mp hp with hp' | hp'
        · exact hcellr p hp'
        · exact ⟨(hnw_facts p hp').2.1, (hnw_facts p hp').2.2⟩
      have hreach' : ∀ p ∈ region ++ nw, emptyReaches b seed p := by
        intro p hp
        rcases List.mem_append.mp hp with hp' | hp'
        · exact hreach p hp'
        · exact Relation.ReflTransGen.tail hcur_reach
            ⟨(hnw_facts p hp').1, (hnw_facts p hp').2.1,
              (hnw_facts p hp').2.2⟩
      have hclosed' : ∀ p ∈ region ++ nw, p ∉ rest ++ nw →
          ∀ n : Point, Adj p n → inRange b n →
          (cellAt b n.x n.y = none → n ∈ visited ∪ nw.toFinset) ∧
          (∀ c, cellAt b n.x n.y = some c →
            c ∈ (List.foldl (rStep b) (rest, visited, region, touching)
              (getNeighbors b current.x current.y)).2.2.2) := by
        intro p hp hpq n hadj hin
        rcases List.mem_append.mp hp with hp' | hp'
        · by_cases hpc : p = current
          · subst hpc
            have hmem : n ∈ getNeighbors b p.x p.y :=
              mem_getNeighbors.mpr ⟨hadj, hin⟩
            constructor
            · intro he
              rcases hfcover n hmem he with h | h
              · exact Finset.mem_union_left _ h
              · exact Finset.mem_union_right _ (List.mem_toFinset.mpr h)
            · intro c hc
              exact (hftch c).mpr (Or.inr ⟨n, hmem, hc⟩)
          · have hpnq : p ∉ current :: rest := by
              intro hmem
              rcases List.mem_cons.mp hmem with h | h
              · exact hpc h
              · exact hpq (List.mem_append_left _ h)
            obtain ⟨h1, h2⟩ := hclosed p hp' hpnq n hadj hin
            exact ⟨fun he => Finset.mem_union_left _ (h1 he),
              fun c hc => (hftch c).mpr (Or.inl (h2 c hc))⟩
        · exact absurd (List.mem_append_right _ hp') hpq
      have htch' : ∀ c ∈ (List.foldl (rStep b)
          (rest, visited, region, touching)
          (getNeighbors b current.x current.y)).2.2.2,
          ∃ p ∈ region ++ nw, ∃ r : Point, Adj p r ∧
            cellAt b r.x r.y = some c := by
        intro c hc
        rcases (hftch c).mp hc with h | ⟨r, hr, hrc⟩
        · obtain ⟨p, hp, r, har, hrc⟩ := htch c h
          exact ⟨p, List.mem_append_left _ hp, r, har, hrc⟩
        · exact ⟨current, List.mem_append_left _ hcur_reg, r,
            (mem_getNeighbors.mp hr).1, hrc⟩
      have hdisj_nw : Disjoint visited nw.toFinset := by
        rw [Finset.disjoint_right]
        intro p hp
        rw [List.mem_toFinset] at hp
        exact hfnv p hp
      have hcard : (visited ∪ nw.toFinset).card =
          visited.card + nw.length := by
        rw [Finset.card_union_of_disjoint hdisj_nw,
          List.toFinset_card_of_nodup hfnd]
      have hsub : visited ∪ nw.toFinset ⊆ allPos b := by
        intro p hp
        rcases Finset.mem_union.mp hp with h | h
        · rcases (hvis p).mp h with h' | h'
          · exact mem_allPos.mpr (hV0 p h').1
          · exact mem_allPos.mpr (hcellr p h').1
        · rw [List.mem_toFinset] at h
          exact mem_allPos.mpr (hnw_facts p h).2.1
      have hcard_le := Finset.card_le_card hsub
      have hfuel' : ((allPos b).card - (visited ∪ nw.toFinset).card) +
          (rest ++ nw).length ≤ fuel := by
        rw [hcard, List.length_append]
        simp only [List.length_cons] at hfuel
        omega
      obtain ⟨i1, i2, i3, i4, i5, i6⟩ :=
        ih (rest ++ nw) (region ++ nw) (visited ∪ nw.toFinset) _
          hvis' hnq' hnr' hqsub' hreg0' hcellr' hreach' hclosed' htch' hfuel'
      refine ⟨i1, ?_, i3, i4, i5, i6⟩
      intro p hp
      exact i2 p (List.mem_append_left _ hp)

/-- Correctness of the region fill started at an unvisited empty point,
when the prior visited set is a union of complete empty regions: the
returned region list is exactly the maximal empty region of `p`, the
returned visited set is the old one plus that region, and the returned
colour set is exactly the set of colours bordering the region. -/
theorem regionFill_spec (sb : BoardState) (hsq : IsSquare sb)
    (vis : Finset Point) (hsat : EmptySaturated sb vis) (p : Point)
    (hpin : inRange sb p) (hpe : cellAt sb p.x p.y = none) (hpv : p ∉ vis) :
    (regionFillAt sb vis p).2.1.Nodup ∧
    (∀ q, q ∈ (regionFillAt sb vis p).2.1 ↔ emptyReaches sb p q) ∧
    (∀ q, q ∈ (regionFillAt sb vis p).1 ↔
      q ∈ vis ∨ q ∈ (regionFillAt sb vis p).2.1) ∧
    (∀ c, c ∈ (regionFillAt sb vis p).2.2 ↔ touches sb p c) := by
  simp only [regionFillAt]
  have hps : p ∈ allPos sb := mem_allPos.mpr hpin
  obtain ⟨i1, i2, i3, i4, i5, i6⟩ := regionFillAux_spec sb p vis hsat
    (sb.length * sb.length) [p] [p] (insert p vis) ∅
    (by
      intro q
      rw [Finset.mem_insert, List.mem_singleton]
      tauto)
    (List.nodup_singleton _) (List.nodup_singleton _)
    (fun q hq => hq)
    (by
      intro q hq
      rw [List.mem_singleton] at hq
      subst hq
      exact hpv)
    (by
      intro q hq
      rw [List.mem_singleton] at hq
      subst hq
      exact ⟨hpin, hpe⟩)
    (by
      intro q hq
      rw [List.mem_singleton] at hq
      subst hq
      exact Relation.ReflTransGen.refl)
    (by
      intro q hq hnq
      rw [List.mem_singleton] at hq
      subst hq
      exact absurd (List.mem_singleton.mpr rfl) hnq)
    (fun c hc => absurd hc (Finset.not_mem_empty c))
    (by
      have h1 : 1 ≤ (allPos sb).card := Finset.card_pos.mpr ⟨p, hps⟩
      have h2 : 1 ≤ (insert p vis).card :=
        Finset.card_pos.mpr ⟨p, Finset.mem_insert_self _ _⟩
      rw [allPos_card] at h1
      simp only [List.length_singleton, allPos_card]
      omega)
  have hcomp : ∀ q, emptyReaches sb p q →
      q ∈ (regionFillAux sb (sb.length * sb.length) [p] (insert p vis)
        [p] ∅).2.1 := by
    intro q hq
    induction hq with
    | refl => exact i2 p (List.mem_singleton.mpr rfl)
    | tail hsm hstep ihq =>
      have ht := (i5 _ ihq _ hstep.1 hstep.2.1).1 hstep.2.2
      rcases (i3 _).mp ht with hv | hr
      · exact absurd
          ((hsat _ hv).2.2 _
            ⟨hstep.1.symm, (i4 _ ihq).2.1, (i4 _ ihq).2.2.1⟩)
          (i4 _ ihq).1
      · exact hr
  refine ⟨i1, ?_, i3, ?_⟩
  · intro q
    exact ⟨fun hq => (i4 q hq).2.2.2, hcomp q⟩
  · intro c
    constructor
    · intro hc
      obtain ⟨q, hq, r, har, hrc⟩ := i6 c hc
      exact ⟨q, (i4 q hq).2.2.2, r, har, hrc⟩
    · rintro ⟨q, hq, r, har, hrc⟩
      exact (i5 q (hcomp q hq) r har
        (inRange_of_cellAt_some hsq hrc)).2 c hrc

/-- Unfolding of the scan body at an unvisited empty point. -/
theorem territoryScanStep_active (sb : BoardState) (vis : Finset Point)
    (bt wt : Nat) (p : Point) (hpe : cellAt sb p.x p.y = none)
    (hpv : p ∉ vis) :
    territoryScanStep sb (vis, bt, wt) p =
      if (regionFillAt sb vis p).2.2.card = 1 then
        if Player.black ∈ (regionFillAt sb vis p).2.2 then
          ((regionFillAt sb vis p).1,
            bt + (regionFillAt sb vis p).2.1.length, wt)
        else if Player.white ∈ (regionFillAt sb vis p).2.2 then
          ((regionFillAt sb vis p).1, bt,
            wt + (regionFillAt sb vis p).2.1.length)
        else ((regionFillAt sb vis p).1, bt, wt)
      else ((regionFillAt sb vis p).1, bt, wt) := by
  rw [territoryScanStep,
    if_pos (show cellAt sb p.x p.y = none ∧ p ∉ (vis, bt, wt).1
      from ⟨hpe, hpv⟩)]
  rfl

/-- Unfolding of the scan body at an occupied or already visited point. -/
theorem territoryScanStep_skip (sb : BoardState) (vis : Finset Point)
    (bt wt : Nat) (p : Point)
    (h : ¬ (cellAt sb p.x p.y = none ∧ p ∉ vis)) :
    territoryScanStep sb (vis, bt, wt) p = (vis, bt, wt) := by
  rw [territoryScanStep,
    if_neg (show ¬ (cellAt sb p.x p.y = none ∧ p ∉ (vis, bt, wt).1) from h)]

theorem mem_scanPositions {n : Nat} {p : Point} :
    p ∈ scanPositions n ↔ p.x < n ∧ p.y < n := by
  rcases p with ⟨px, py⟩
  simp only [scanPositions, List.mem_flatMap, List.mem_map, List.mem_range]
  constructor
  · rintro ⟨y, hy, x, hx, heq⟩
    rw [Point.mk.injEq] at heq
    obtain ⟨rfl, rfl⟩ := heq
    exact ⟨hx, hy⟩
  · rintro ⟨hx, hy⟩
    exact ⟨py, hy, px, hx, rfl⟩

theorem deadFold_isSquare (board : BoardState) :
    ∀ (l : List Point) (a1 a2 : Nat) (bacc : BoardState), IsSquare bacc →
    IsSquare ((l.foldl (fun acc pos =>
      ((if cellAt board pos.x pos.y = some Player.black then acc.1 + 1
        else acc.1),
       (if cellAt board pos.x pos.y = some Player.white then acc.2.1 + 1
        else acc.2.1),
       setCell acc.2.2 pos.x pos.y none)) (a1, a2, bacc)).2.2) := by
  intro l
  induction l with
  | nil =>
    intro a1 a2 bacc hb
    simpa using hb
  | cons s l ih =>
    intro a1 a2 bacc hb
    rw [List.foldl_cons]
    exact ih _ _ _ (hb.setCell _ _ _)

theorem scoreBoardOf_isSquare (board : BoardState) (deadStones : Finset Point)
    (hsq : IsSquare board) : IsSquare (scoreBoardOf board deadStones) :=
  deadFold_isSquare board (deadListOf deadStones) 0 0 board hsq

open Classical in
/-- One scan step preserves the scan invariant: the visited set stays a
union of complete empty regions, grows monotonically, covers the scanned
point when it is empty, and the two counters keep counting exactly the
visited points whose region borders only the corresponding colour. -/
theorem territoryScanStep_spec (sb : BoardState) (hsq : IsSquare sb)
    (vis : Finset Point) (bt wt : Nat) (p : Point) (hpin : inRange sb p)
    (hsat : EmptySaturated sb vis)
    (hbt : bt = (vis.filter (fun q => BlackRegion sb q)).card)
    (hwt : wt = (vis.filter (fun q => WhiteRegion sb q)).card) :
    EmptySaturated sb (territoryScanStep sb (vis, bt, wt) p).1 ∧
    vis ⊆ (territoryScanStep sb (vis, bt, wt) p).1 ∧
    (territoryScanStep sb (vis, bt, wt) p).2.1 =
      (((territoryScanStep sb (vis, bt, wt) p).1).filter
        (fun q => BlackRegion sb q)).card ∧
    (territoryScanStep sb (vis, bt, wt) p).2.2 =
      (((territoryScanStep sb (vis, bt, wt) p).1).filter
        (fun q => WhiteRegion sb q)).card ∧
    (cellAt sb p.x p.y = none →
      p ∈ (territoryScanStep sb (vis, bt, wt) p).1) := by
  by_cases hcond : cellAt sb p.x p.y = none ∧ p ∉ vis
  case neg =>
    rw [territoryScanStep_skip sb vis bt wt p hcond]
    refine ⟨hsat, Finset.Subset.refl vis, hbt, hwt, ?_⟩
    intro he
    by_contra hpv
    exact hcond ⟨he, hpv⟩
  case pos =>
    obtain ⟨hpe, hpv⟩ := hcond
    obtain ⟨rnd, rchar, vchar, tchar⟩ :=
      regionFill_spec sb hsq vis hsat p hpin hpe hpv
    have hreg_pro : ∀ q ∈ (regionFillAt sb vis p).2.1,
        inRange sb q ∧ cellAt sb q.x q.y = none :=
      fun q hq => emptyReaches_inRange hpin hpe ((rchar q).mp hq)
    have hreg_nvis : ∀ q ∈ (regionFillAt sb vis p).2.1, q ∉ vis := by
      intro q hq hqv
      exact hpv (hsat.mem_of_reaches hqv
        (emptyReaches_symm hpin hpe ((rchar q).mp hq)))
    have hsat' : EmptySaturated sb (regionFillAt sb vis p).1 := by
      intro v hv
      rcases (vchar v).mp hv with hvv | hvr
      · obtain ⟨h1, h2, h3⟩ := hsat v hvv
        exact ⟨h1, h2, fun t ht => (vchar t).mpr (Or.inl (h3 t ht))⟩
      · obtain ⟨h1, h2⟩ := hreg_pro v hvr
        refine ⟨h1, h2, fun t ht => (vchar t).mpr (Or.inr ?_)⟩
        exact (rchar t).mpr
          (Relation.ReflTransGen.tail ((rchar v).mp hvr) ht)
    have hsub' : vis ⊆ (regionFillAt sb vis p).1 :=
      fun q hq => (vchar q).mpr (Or.inl hq)
    have hpmem : p ∈ (regionFillAt sb vis p).1 :=
      (vchar p).mpr (Or.inr ((rchar p).mpr Relation.ReflTransGen.refl))
    have hf1eq : (regionFillAt sb vis p).1 =
        vis ∪ (regionFillAt sb vis p).2.1.toFinset := by
      ext q
      rw [vchar q, Finset.mem_union, List.mem_toFinset]
    have hdisjF : Disjoint vis (regionFillAt sb vis p).2.1.toFinset := by
      rw [Finset.disjoint_right]
      intro q hq
      exact hreg_nvis q (List.mem_toFinset.mp hq)
    have hrlen : (regionFillAt sb vis p).2.1.toFinset.card =
        (regionFillAt sb vis p).2.1.length :=
      List.toFinset_card_of_nodup rnd
    have htq : ∀ q ∈ (regionFillAt sb vis p).2.1, ∀ c : Player,
        touches sb q c ↔ c ∈ (regionFillAt sb vis p).2.2 := by
      intro q hq c
      rw [touches_congr hpin hpe ((rchar q).mp hq) c, tchar c]
    have hfB : ((regionFillAt sb vis p).1.filter
        (fun q => BlackRegion sb q)).card =
        bt + ((regionFillAt sb vis p).2.1.toFinset.filter
          (fun q => BlackRegion sb q)).card := by
      rw [hf1eq, Finset.filter_union,
        Finset.card_union_of_disjoint (Finset.disjoint_filter_filter hdisjF),
        hbt]
    have hfW : ((regionFillAt sb vis p).1.filter
        (fun q => WhiteRegion sb q)).card =
        wt + ((regionFillAt sb vis p).2.1.toFinset.filter
          (fun q => WhiteRegion sb q)).card := by
      rw [hf1eq, Finset.filter_union,
        Finset.card_union_of_disjoint (Finset.disjoint_filter_filter hdisjF),
        hwt]
    rw [territoryScanStep_active sb vis bt wt p hpe hpv]
    by_cases hcard : (regionFillAt sb vis p).2.2.card = 1
    · rw [if_pos hcard]
      by_cases hB : Player.black ∈ (regionFillAt sb vis p).2.2
      · rw [if_pos hB]
        have hW : Player.white ∉ (regionFillAt sb vis p).2.2 := by
          intro hw
          obtain ⟨a, ha⟩ := Finset.card_eq_one.mp hcard
          rw [ha, Finset.mem_singleton] at hB hw
          exact Player.noConfusion (hw.trans hB.symm)
        refine ⟨hsat', hsub', ?_, ?_, fun _ => hpmem⟩
        · rw [hfB]
          have hfull : (regionFillAt sb vis p).2.1.toFinset.filter
              (fun q => BlackRegion sb q) =
              (regionFillAt sb vis p).2.1.toFinset := by
            apply Finset.filter_true_of_mem
            intro q hq
            rw [List.mem_toFinset] at hq
            exact ⟨(htq q hq Player.black).mpr hB,
              fun hw => hW ((htq q hq Player.white).mp hw)⟩
          rw [hfull, hrlen]
        · rw [hfW]
          have hnone : (regionFillAt sb vis p).2.1.toFinset.filter
              (fun q => WhiteRegion sb q) = ∅ := by
            apply Finset.filter_false_of_mem
            intro q hq
            rw [List.mem_toFinset] at hq
            exact fun hWq => hWq.2 ((htq q hq Player.black).mpr hB)
          rw [hnone, Finset.card_empty]
          rfl
      · rw [if_neg hB]
        by_cases hW : Player.white ∈ (regionFillAt sb vis p).2.2
        · rw [if_pos hW]
          refine ⟨hsat', hsub', ?_, ?_, fun _ => hpmem⟩
          · rw [hfB]
            have hnone : (regionFillAt sb vis p).2.1.toFinset.filter
                (fun q => BlackRegion sb q) = ∅ := by
              apply Finset.filter_false_of_mem
              intro q hq
              rw [List.mem_toFinset] at hq
              exact fun hBq => hBq.2 ((htq q hq Player.white).mpr hW)
            rw [hnone, Finset.card_empty]
            rfl
          · rw [hfW]
            have hfull : (regionFillAt sb vis p).2.1.toFinset.filter
                (fun q => WhiteRegion sb q) =
                (regionFillAt sb vis p).2.1.toFinset := by
              apply Finset.filter_true_of_mem
              intro q hq
              rw [List.mem_toFinset] at hq
              exact ⟨(htq q hq Player.white).mpr hW,
                fun hb => hB ((htq q hq Player.black).mp hb)⟩
            rw [hfull, hrlen]
        · exfalso
          obtain ⟨a, ha⟩ := Finset.card_eq_one.mp hcard
          rw [ha] at hB hW
          cases a
          · exact hB (Finset.mem_singleton_self _)
          · exact hW (Finset.mem_singleton_self _)
    · rw [if_neg hcard]
      by_cases hB : Player.black ∈ (regionFillAt sb vis p).2.2
      · by_cases hW : Player.white ∈ (regionFillAt sb vis p).2.2
        · refine ⟨hsat', hsub', ?_, ?_, fun _ => hpmem⟩
          · rw [hfB]
            have hnone : (regionFillAt sb vis p).2.1.toFinset.filter
                (fun q => BlackRegion sb q) = ∅ := by
              apply Finset.filter_false_of_mem
              intro q hq
              rw [List.mem_toFinset] at hq
              exact fun hBq => hBq.2 ((htq q hq Player.white).mpr hW)
            rw [hnone, Finset.card_empty]
            rfl
          · rw [hfW]
            have hnone : (regionFillAt sb vis p).2.1.toFinset.filter
                (fun q => WhiteRegion sb q) = ∅ := by
              apply Finset.filter_false_of_mem
              intro q hq
              rw [List.mem_toFinset] at hq
              exact fun hWq => hWq.2 ((htq q hq Player.black).mpr hB)
            rw [hnone, Finset.card_empty]
            rfl
        · exfalso
          apply hcard
          have hTeq : (regionFillAt sb vis p).2.2 = {Player.black} := by
            ext c
            rw [Finset.mem_singleton]
            constructor
            · intro hc
              cases c
              · rfl
              · exact absurd hc hW
            · rintro rfl
              exact hB
          rw [hTeq, Finset.card_singleton]
      · by_cases hW : Player.white ∈ (regionFillAt sb vis p).2.2
        · exfalso
          apply hcard
          have hTeq : (regionFillAt sb vis p).2.2 = {Player.white} := by
            ext c
            rw [Finset.mem_singleton]
            constructor
            · intro hc
              cases c
              · exact absurd hc hB
              · rfl
            · rintro rfl
              exact hW
          rw [hTeq, Finset.card_singleton]
        · refine ⟨hsat', hsub', ?_, ?_, fun _ => hpmem⟩
          · rw [hfB]
            have hnone : (regionFillAt sb vis p).2.1.toFinset.filter
                (fun q => BlackRegion sb q) = ∅ := by
              apply Finset.filter_false_of_mem
              intro q hq
              rw [List.mem_toFinset] at hq
              exact fun hBq => hB ((htq q hq Player.black).mp hBq.1)
            rw [hnone, Finset.card_empty]
            rfl
          · rw [hfW]
            have hnone : (regionFillAt sb vis p).2.1.toFinset.filter
                (fun q => WhiteRegion sb q) = ∅ := by
              apply Finset.filter_false_of_mem
              intro q hq
              rw [List.mem_toFinset] at hq
              exact fun hWq => hW ((htq q hq Player.white).mp hWq.1)
            rw [hnone, Finset.card_empty]
            rfl

open Classical in
/-- The scan invariant carried over any list of in-range positions. -/
theorem scanFold_spec (sb : BoardState) (hsq : IsSquare sb) :
    ∀ (l : List Point) (vis : Finset Point) (bt wt : Nat),
    (∀ p ∈ l, inRange sb p) →
    EmptySaturated sb vis →
    bt = (vis.filter (fun q => BlackRegion sb q)).card →
    wt = (vis.filter (fun q => WhiteRegion sb q)).card →
    EmptySaturated sb (l.foldl (territoryScanStep sb) (vis, bt, wt)).1 ∧
    vis ⊆ (l.foldl (territoryScanStep sb) (vis, bt, wt)).1 ∧
    (l.foldl (territoryScanStep sb) (vis, bt, wt)).2.1 =
      ((l.foldl (territoryScanStep sb) (vis, bt, wt)).1.filter
        (fun q => BlackRegion sb q)).card ∧
    (l.foldl (territoryScanStep sb) (vis, bt, wt)).2.2 =
      ((l.foldl (territoryScanStep sb) (vis, bt, wt)).1.filter
        (fun q => WhiteRegion sb q)).card ∧
    (∀ p ∈ l, cellAt sb p.x p.y = none →
      p ∈ (l.foldl (territoryScanStep sb) (vis, bt, wt)).1) := by
  intro l
  induction l with
  | nil =>
    intro vis bt wt hl hsat hbt hwt
    exact ⟨hsat, Finset.Subset.refl vis, hbt, hwt,
      fun p hp => absurd hp (List.not_mem_nil p)⟩
  | cons p l ih =>
    intro vis bt wt hl hsat hbt hwt
    rw [List.foldl_cons]
    obtain ⟨s1, s2, s3, s4, s5⟩ := territoryScanStep_spec sb hsq vis bt wt p
      (hl p (List.mem_cons_self _ _)) hsat hbt hwt
    obtain ⟨i1, i2, i3, i4, i5⟩ := ih (territoryScanStep sb (vis, bt, wt) p).1
      (territoryScanStep sb (vis, bt, wt) p).2.1
      (territoryScanStep sb (vis, bt, wt) p).2.2
      (fun q hq => hl q (List.mem_cons_of_mem _ hq)) s1 s3 s4
    refine ⟨i1, Finset.Subset.trans s2 i2, i3, i4, ?_⟩
    intro q hq he
    rcases List.mem_cons.mp hq with rfl | hq'
    · exact i2 (s5 he)
    · exact i5 q hq' he

open Classical in
/-- The two territory counters of the full scan count exactly the empty
points whose maximal empty region borders only the corresponding colour. -/
theorem territoryScan_spec (sb : BoardState) (hsq : IsSquare sb) :
    (territoryScan sb).2.1 = ((allPos sb).filter
      (fun q => cellAt sb q.x q.y = none ∧ BlackRegion sb q)).card ∧
    (territoryScan sb).2.2 = ((allPos sb).filter
      (fun q => cellAt sb q.x q.y = none ∧ WhiteRegion sb q)).card := by
  obtain ⟨f1, f2, f3, f4, f5⟩ := scanFold_spec sb hsq
    (scanPositions sb.length) ∅ 0 0
    (fun p hp => mem_scanPositions.mp hp)
    (fun v hv => absurd hv (Finset.not_mem_empty v))
    (by simp) (by simp)
  have hVeq : ((scanPositions sb.length).foldl (territoryScanStep sb)
      (∅, 0, 0)).1 =
      (allPos sb).filter (fun q => cellAt sb q.x q.y = none) := by
    ext q
    rw [Finset.mem_filter, mem_allPos]
    constructor
    · intro hq
      exact ⟨(f1 q hq).1, (f1 q hq).2.1⟩
    · rintro ⟨hin, he⟩
      exact f5 q (mem_scanPositions.mpr ⟨hin.1, hin.2⟩) he
  simp only [territoryScan]
  rw [f3, f4, hVeq, Finset.filter_filter, Finset.filter_filter]
  exact ⟨rfl, rfl⟩

/-! ### Claims -/

/-- C5: `getGroup` on an empty point returns an empty stone list and empty
liberty set (a defined no-op); on an occupied point it returns exactly the
maximal orthogonally connected set of same-colour stones containing the
seed, and its liberties are exactly the empty points orthogonally adjacent
to some stone of that group, each counted once. -/
theorem getGroup_stones_liberties (b : BoardState) (x y : Nat)
    (hsq : IsSquare b) : GetGroupClaim b x y := by
  constructor
  · exact getGroup_of_empty
  · intro c hc
    obtain ⟨h1, h2, h3⟩ := getGroup_spec hsq hc
    refine ⟨h1, h2, ?_⟩
    intro q
    rw [h3 q]
    constructor
    · rintro ⟨hin, he, p, hr, hadj⟩
      exact ⟨hin, he, p, (h2 p).mpr hr, hadj⟩
    · rintro ⟨hin, he, p, hp, hadj⟩
      exact ⟨hin, he, p, (h2 p).mp hp, hadj⟩

/-- Witness for C5 at a concrete 2×2 board. -/
theorem getGroup_stones_liberties_witness :
    IsSquare [[some Player.white, none], [some Player.black, none]] ∧
    GetGroupClaim [[some Player.white, none], [some Player.black, none]] 0 0 :=
  ⟨by decide, getGroup_stones_liberties _ 0 0 (by decide)⟩

/-- C10: with `y` in range and `x` out of range, the occupied check reads
`undefined`, which is not `null`, so `attemptMove` rejects the move with
the occupied message instead of bounds-checking it. -/
theorem attemptMove_bad_column_occupied (b : BoardState) (p : Player)
    (x y : Int) (hsq : IsSquare b)
    (hy : 0 ≤ y ∧ y < (b.length : Int))
    (hx : x < 0 ∨ (b.length : Int) ≤ x) :
    attemptMove b x y p = Except.ok
      { valid := false, newBoard := none, capturedCount := none,
        message := some "Point is already occupied." } :=
  attemptMove_x_out hsq hy hx

/-- Witness for C10 on the empty 1×1 board with column 5. -/
theorem attemptMove_bad_column_occupied_witness :
    IsSquare [[(none : Option Player)]] ∧
    (0 ≤ (0 : Int) ∧
      (0 : Int) < (([[(none : Option Player)]] : BoardState).length : Int)) ∧
    ((5 : Int) < 0 ∨
      (([[(none : Option Player)]] : BoardState).length : Int) ≤ 5) ∧
    attemptMove [[(none : Option Player)]] 5 0 Player.black = Except.ok
      { valid := false, newBoard := none, capturedCount := none,
        message := some "Point is already occupied." } :=
  ⟨by decide, ⟨by decide, by decide⟩, by decide,
    attemptMove_bad_column_occupied _ _ 5 0 (by decide)
      ⟨by decide, by decide⟩ (by decide)⟩

/-- C9 counterexample: on the 1×1 board, row index 1 is out of range, so
the occupied check evaluates `board[1][0]` with `board[1] = undefined` and
throws a `TypeError` instead of returning any `valid=false` value. -/
theorem attemptMove_out_of_range_throws_cex :
    attemptMove [[(none : Option Player)]] 0 1 Player.black =
      Except.error () ∧
    ¬ ∃ r : MoveResult,
      attemptMove [[(none : Option Player)]] 0 1 Player.black =
        Except.ok r ∧ r.valid = false := by
  have h : attemptMove [[(none : Option Player)]] 0 1 Player.black =
      Except.error () := rfl
  refine ⟨h, ?_⟩
  rintro ⟨r, hr, _⟩
  rw [h] at hr
  cases hr

/-- C9 amended: for out-of-range coordinates, `attemptMove` returns the
occupied rejection (`valid=false`) without throwing exactly when the row
index `y` is in range (so only the column is bad); when `y` itself is out
of range it throws a `TypeError` instead of returning a value. -/
theorem attemptMove_out_of_range_behavior (b : BoardState) (p : Player)
    (x y : Int) (hsq : IsSquare b)
    (hout : x < 0 ∨ (b.length : Int) ≤ x ∨ y < 0 ∨ (b.length : Int) ≤ y) :
    (0 ≤ y ∧ y < (b.length : Int) →
      attemptMove b x y p = Except.ok
        { valid := false, newBoard := none, capturedCount := none,
          message := some "Point is already occupied." }) ∧
    (y < 0 ∨ (b.length : Int) ≤ y →
      attemptMove b x y p = Except.error ()) := by
  constructor
  · intro hy
    have hx : x < 0 ∨ (b.length : Int) ≤ x := by omega
    exact attemptMove_x_out hsq hy hx
  · exact fun hy => attemptMove_y_out hy

/-- Witness for the amended C9 on the empty 1×1 board. -/
theorem attemptMove_out_of_range_behavior_witness :
    IsSquare [[(none : Option Player)]] ∧
    ((2 : Int) < 0 ∨
      (([[(none : Option Player)]] : BoardState).length : Int) ≤ 2 ∨
      (0 : Int) < 0 ∨
      (([[(none : Option Player)]] : BoardState).length : Int) ≤ 0) ∧
    ((0 ≤ (0 : Int) ∧
        (0 : Int) < (([[(none : Option Player)]] : BoardState).length : Int) →
      attemptMove [[(none : Option Player)]] 2 0 Player.black = Except.ok
        { valid := false, newBoard := none, capturedCount := none,
          message := some "Point is already occupied." }) ∧
     ((0 : Int) < 0 ∨
        (([[(none : Option Player)]] : BoardState).length : Int) ≤ 0 →
      attemptMove [[(none : Option Player)]] 2 0 Player.black =
        Except.error ())) :=
  ⟨by decide, by decide,
    attemptMove_out_of_range_behavior _ _ 2 0 (by decide) (by decide)⟩

/-- C1: captures are resolved before the suicide check.  Every orthogonally
adjacent opponent group left with zero liberties by the placement is
removed by the capture loop, and the move is accepted (`valid = true`, with
the post-capture board) whenever the placed stone's group has at least one
liberty after those removals — even if it had none before them. -/
theorem attemptMove_captures_then_accepts (b : BoardState) (x y : Nat)
    (p : Player) (hsq : IsSquare b) (hx : x < b.length) (hy : y < b.length)
    (hemp : cellAt b x y = none) : CaptureThenAcceptClaim b x y p := by
  have hsq1 : IsSquare (setCell b x y (some p)) := hsq.setCell _ _ _
  obtain ⟨S', hsat, hchar, hcnt, hlen, hsqr, hpt⟩ :=
    resolveCaptures_spec (setCell b x y (some p)) p.opp x y hsq1
  constructor
  · intro n hn hcell hcard s hs
    have hnolib : ¬ HasLib (setCell b x y (some p)) p.opp n :=
      (getGroup_card_zero_iff hsq1 hcell).mp hcard
    have hreach : reaches (setCell b x y (some p)) p.opp n s :=
      (getGroup_stones_iff hsq1 hcell s).mp hs
    have hsS : s ∈ S' := (hchar s).mpr ⟨n, hn, hcell, hnolib, hreach⟩
    have hp := hpt s.x s.y
    rw [Point.eta, if_pos hsS] at hp
    exact hp
  · intro hlib
    rw [attemptMove_inRange_empty hsq hx hy hemp, attemptMoveCore_eq,
      if_neg hlib]

/-- Witness for C1: black at (1,0) captures the white stone at (0,0) on a
2×2 board. -/
theorem attemptMove_captures_then_accepts_witness :
    IsSquare [[some Player.white, none], [some Player.black, none]] ∧
    (1 < ([[some Player.white, none],
      [some Player.black, none]] : BoardState).length) ∧
    (0 < ([[some Player.white, none],
      [some Player.black, none]] : BoardState).length) ∧
    cellAt [[some Player.white, none], [some Player.black, none]] 1 0 =
      none ∧
    CaptureThenAcceptClaim
      [[some Player.white, none], [some Player.black, none]] 1 0
      Player.black :=
  ⟨by decide, by decide, by decide, by decide,
    attemptMove_captures_then_accepts _ 1 0 Player.black (by decide)
      (by decide) (by decide) (by decide)⟩

/-- C2: an accepted move produces the input board plus the placed stone
and minus exactly the adjacent opponent groups with zero post-placement
liberties (possibly several); every other point is unchanged and
`capturedCount` counts the removed stones. -/
theorem attemptMove_valid_effect (b : BoardState) (x y : Nat) (p : Player)
    (hsq : IsSquare b) (hx : x < b.length) (hy : y < b.length)
    (hemp : cellAt b x y = none) : MoveEffectClaim b x y p := by
  intro r hok hvalid
  have hsq1 : IsSquare (setCell b x y (some p)) := hsq.setCell _ _ _
  obtain ⟨S', hsat, hchar, hcnt, hlen, hsqr, hpt⟩ :=
    resolveCaptures_spec (setCell b x y (some p)) p.opp x y hsq1
  have hinIff : ∀ q : Point,
      inRange (setCell b x y (some p)) q ↔ inRange b q := by
    intro q
    rw [inRange, inRange, setCell_length]
  rw [attemptMove_inRange_empty hsq hx hy hemp] at hok
  injection hok with h
  rw [attemptMoveCore_eq] at h
  by_cases hcard : (getGroup (resolveCaptures (setCell b x y (some p))
      x y p.opp).1 x y).liberties.card = 0
  · rw [if_pos hcard] at h
    rw [← h] at hvalid
    cases hvalid
  · rw [if_neg hcard] at h
    refine ⟨(resolveCaptures (setCell b x y (some p)) x y p.opp).1, S',
      by rw [← h], ?_, ?_, ?_, ?_, by rw [← h]; dsimp only; rw [hcnt]⟩
    · intro q
      rw [hchar q]
      constructor
      · rintro ⟨n, hn, hcell, hnolib, hreach⟩
        have hm := mem_getNeighbors.mp hn
        exact ⟨n, hm.1, (hinIff n).mp hm.2, hcell, hnolib, hreach⟩
      · rintro ⟨n, hadj, hin, hcell, hnolib, hreach⟩
        exact ⟨n, mem_getNeighbors.mpr ⟨hadj, (hinIff n).mpr hin⟩,
          hcell, hnolib, hreach⟩
    · have hb1 : cellAt (setCell b x y (some p)) x y = some p := by
        rw [cellAt_setCell hsq, if_pos ⟨rfl, rfl, hx, hy⟩]
      have hxyS : (⟨x, y⟩ : Point) ∉ S' := by
        intro hmem
        have ho := (hsat.1 _ hmem).2
        rw [hb1] at ho
        injection ho with h2
        exact Player.opp_ne p h2.symm
      have hp := hpt x y
      rw [if_neg hxyS] at hp
      rw [hp]
      exact hb1
    · intro q hq
      have hp := hpt q.x q.y
      rw [Point.eta, if_pos hq] at hp
      exact hp
    · intro u w hne hnotC
      have hp := hpt u w
      rw [if_neg hnotC] at hp
      rw [hp, cellAt_setCell hsq, if_neg (by
        rintro ⟨h1, h2, -, -⟩
        exact hne ⟨h1.symm, h2.symm⟩)]

/-- Witness for C2: black at (1,0) on the 2×2 board with white (0,0). -/
theorem attemptMove_valid_effect_witness :
    IsSquare [[some Player.white, none], [some Player.black, none]] ∧
    (1 < ([[some Player.white, none],
      [some Player.black, none]] : BoardState).length) ∧
    (0 < ([[some Player.white, none],
      [some Player.black, none]] : BoardState).length) ∧
    cellAt [[some Player.white, none], [some Player.black, none]] 1 0 =
      none ∧
    MoveEffectClaim [[some Player.white, none], [some Player.black, none]]
      1 0 Player.black :=
  ⟨by decide, by decide, by decide, by decide,
    attemptMove_valid_effect _ 1 0 Player.black (by decide) (by decide)
      (by decide) (by decide)⟩

/-- C4 counterexample: the occupied rejection message carries a trailing
period, so it differs from the claim's quoted message
"Point is already occupied". -/
theorem occupied_message_cex :
    attemptMove [[some Player.black]] 0 0 Player.black = Except.ok
      { valid := false, newBoard := none, capturedCount := none,
        message := some "Point is already occupied." } ∧
    some "Point is already occupied." ≠
      (some "Point is already occupied" : Option String) := by
  constructor
  · rfl
  · decide

/-- C4 amended: for an in-range target, the move is rejected exactly when
the point is occupied or the placed group has zero liberties after capture
resolution; an occupied point yields the message
"Point is already occupied." (with a trailing period, unlike the claim's
quotation), a suicide yields "Suicide move is not allowed.", and neither
rejection carries a `newBoard`. -/
theorem attemptMove_rejection_cases (b : BoardState) (x y : Nat)
    (p : Player) (hsq : IsSquare b) (hx : x < b.length)
    (hy : y < b.length) : RejectionClaim b x y p := by
  cases hcell : cellAt b x y with
  | some c =>
    refine ⟨⟨false, none, none, some "Point is already occupied."⟩,
      attemptMove_inRange_occupied hsq hx hy hcell, ?_, fun _ => rfl, ?_⟩
    · constructor
      · intro _
        left
        rw [hcell]
        intro h
        cases h
      · intro _
        rfl
    · intro h
      rw [hcell] at h
      cases h
  | none =>
    by_cases hcard : (getGroup (resolveCaptures (setCell b x y (some p))
        x y p.opp).1 x y).liberties.card = 0
    · refine ⟨⟨false, none, none, some "Suicide move is not allowed."⟩,
        ?_, ?_, ?_, fun _ _ => rfl⟩
      · rw [attemptMove_inRange_empty hsq hx hy hcell, attemptMoveCore_eq,
          if_pos hcard]
      · exact ⟨fun _ => Or.inr hcard, fun _ => rfl⟩
      · intro h
        exact absurd hcell h
    · refine ⟨⟨true,
          some (resolveCaptures (setCell b x y (some p)) x y p.opp).1,
          some (resolveCaptures (setCell b x y (some p)) x y p.opp).2,
          none⟩, ?_, ?_, ?_, ?_⟩
      · rw [attemptMove_inRange_empty hsq hx hy hcell, attemptMoveCore_eq,
          if_neg hcard]
      · constructor
        · intro hv
          cases hv
        · rintro (h | h)
          · exact absurd hcell h
          · exact absurd h hcard
      · intro h
        exact absurd hcell h
      · intro _ h
        exact absurd h hcard

/-- C3 counterexample: on a board that already carries a zero-liberty
white group at (0,0) (an illegal position, but the claim quantifies over
every board), black's valid move at (2,2) leaves that dead group on the
returned board. -/
theorem attemptMove_zero_lib_preserved_cex :
    attemptMove
      [[some Player.white, some Player.black, none],
       [some Player.black, none, none],
       [none, none, none]] 2 2 Player.black = Except.ok
      { valid := true,
        newBoard := some
          [[some Player.white, some Player.black, none],
           [some Player.black, none, none],
           [none, none, some Player.black]],
        capturedCount := some 0, message := none } ∧
    cellAt
      [[some Player.white, some Player.black, none],
       [some Player.black, none, none],
       [none, none, some Player.black]] 0 0 ≠ none ∧
    (getGroup
      [[some Player.white, some Player.black, none],
       [some Player.black, none, none],
       [none, none, some Player.black]] 0 0).liberties = ∅ :=
  ⟨rfl, by decide, by decide⟩

/-- C3 amended: if the *input* board has no zero-liberty group, then after
`attemptMove` returns `valid = true` no group of either colour on the
returned board has zero liberties. -/
theorem attemptMove_no_dead_groups (b : BoardState) (x y : Int) (p : Player)
    (r : MoveResult) (nb : BoardState) (hsq : IsSquare b)
    (hnd : NoDeadGroups b)
    (hok : attemptMove b x y p = Except.ok r)
    (hvalid : r.valid = true) (hnb : r.newBoard = some nb) :
    NoDeadGroups nb := by
  obtain ⟨xn, yn, hxq, hyq, hx, hy, hemp, hr⟩ :=
    attemptMove_ok_elim hsq hok hvalid
  have hsq1 : IsSquare (setCell b xn yn (some p)) := hsq.setCell _ _ _
  obtain ⟨S', hsat, hchar, hcnt, hlen2, hsq2, hpt⟩ :=
    resolveCaptures_spec (setCell b xn yn (some p)) p.opp xn yn hsq1
  rw [attemptMoveCore_eq] at hr
  by_cases hcard : (getGroup (resolveCaptures (setCell b xn yn (some p))
      xn yn p.opp).1 xn yn).liberties.card = 0
  · rw [if_pos hcard] at hr
    rw [hr] at hvalid
    cases hvalid
  · rw [if_neg hcard] at hr
    rw [hr] at hnb
    injection hnb with hnbe
    subst hnbe
    have hreslen : (resolveCaptures (setCell b xn yn (some p))
        xn yn p.opp).1.length = b.length := by
      rw [hlen2, setCell_length]
    have hinr : ∀ q : Point, inRange (resolveCaptures (setCell b xn yn
        (some p)) xn yn p.opp).1 q ↔ inRange b q := by
      intro q
      rw [inRange, inRange, hreslen]
    have hinr1 : ∀ q : Point,
        inRange (setCell b xn yn (some p)) q ↔ inRange b q := by
      intro q
      rw [inRange, inRange, setCell_length]
    have hb1xy : cellAt (setCell b xn yn (some p)) xn yn = some p := by
      rw [cellAt_setCell hsq, if_pos ⟨rfl, rfl, hx, hy⟩]
    have hxyS : (⟨xn, yn⟩ : Point) ∉ S' := by
      intro hm
      have ho := (hsat.1 _ hm).2
      rw [hb1xy] at ho
      injection ho with h2
      exact Player.opp_ne p h2.symm
    have hresxy : cellAt (resolveCaptures (setCell b xn yn (some p))
        xn yn p.opp).1 xn yn = some p := by
      have hp0 := hpt xn yn
      rw [if_neg hxyS] at hp0
      rw [hp0]
      exact hb1xy
    intro z hz hocc
    cases hcz : cellAt (resolveCaptures (setCell b xn yn (some p))
        xn yn p.opp).1 z.x z.y with
    | none => exact absurd hcz hocc
    | some d =>
      have hzS : z ∉ S' := by
        intro hm
        have hp0 := hpt z.x z.y
        rw [Point.eta, if_pos hm] at hp0
        rw [hp0] at hcz
        cases hcz
      have hzb1 : cellAt (setCell b xn yn (some p)) z.x z.y = some d := by
        have hp0 := hpt z.x z.y
        rw [Point.eta, if_neg hzS] at hp0
        rw [← hp0]
        exact hcz
      suffices hhl : HasLib (resolveCaptures (setCell b xn yn (some p))
          xn yn p.opp).1 d z by
        obtain ⟨l, hl1, hl2, t, ht, hadj⟩ := hhl
        intro hemp2
        have hmem : l ∈ (getGroup (resolveCaptures (setCell b xn yn
            (some p)) xn yn p.opp).1 z.x z.y).liberties :=
          (getGroup_liberties_iff hsq2 hcz l).mpr ⟨hl1, hl2, t, ht, hadj⟩
        rw [hemp2] at hmem
        exact absurd hmem (Finset.not_mem_empty l)
      have hd : d = p ∨ d = p.opp := by
        cases d <;> cases p <;> simp [Player.opp]
      rcases hd with hdp | hdp
      · replace hdp : p = d := hdp.symm
        subst hdp
        by_cases hconn : reaches (resolveCaptures (setCell b xn yn
            (some p)) xn yn p.opp).1 p z ⟨xn, yn⟩
        · obtain ⟨l, hl⟩ := Finset.card_pos.mp (Nat.pos_of_ne_zero hcard)
          obtain ⟨hl1, hl2, t, ht, hadj⟩ :=
            (getGroup_liberties_iff hsq2 hresxy l).mp hl
          exact ⟨l, hl1, hl2, t, Relation.ReflTransGen.trans hconn ht, hadj⟩
        · have hz_ne : z ≠ ⟨xn, yn⟩ := by
            intro he
            apply hconn
            rw [he]
            exact Relation.ReflTransGen.refl
          have hzb : cellAt b z.x z.y = some p := by
            rw [cellAt_setCell hsq] at hzb1
            by_cases hc : xn = z.x ∧ yn = z.y ∧ xn < b.length ∧
                yn < b.length
            · exfalso
              apply hz_ne
              obtain ⟨h1, h2, -, -⟩ := hc
              rw [← Point.eta z, ← h1, ← h2]
            · rw [if_neg hc] at hzb1
              exact hzb1
          have havoid : ∀ t : Point, reaches (resolveCaptures (setCell b
              xn yn (some p)) xn yn p.opp).1 p z t → reaches b p z t := by
            intro t ht
            induction ht with
            | refl => exact Relation.ReflTransGen.refl
            | tail hsm hstep ih =>
              rename_i m t'
              have ht'ne : t' ≠ ⟨xn, yn⟩ := by
                intro he
                apply hconn
                rw [← he]
                exact Relation.ReflTransGen.tail hsm hstep
              have hcc := hstep.2.2
              have ht'S : t' ∉ S' := by
                intro hm
                have hp0 := hpt t'.x t'.y
                rw [Point.eta, if_pos hm] at hp0
                rw [hp0] at hcc
                cases hcc
              have hcb1 : cellAt (setCell b xn yn (some p)) t'.x t'.y =
                  some p := by
                have hp0 := hpt t'.x t'.y
                rw [Point.eta, if_neg ht'S] at hp0
                rw [← hp0]
                exact hcc
              have hcb : cellAt b t'.x t'.y = some p := by
                rw [cellAt_setCell hsq] at hcb1
                by_cases hc : xn = t'.x ∧ yn = t'.y ∧ xn < b.length ∧
                    yn < b.length
                · exfalso
                  apply ht'ne
                  obtain ⟨h1, h2, -, -⟩ := hc
                  rw [← Point.eta t', ← h1, ← h2]
                · rw [if_neg hc] at hcb1
                  exact hcb1
              refine Relation.ReflTransGen.tail ih ⟨hstep.1, ?_, hcb⟩
              have hin' := hstep.2.1
              rw [inRange] at hin' ⊢
              rw [hreslen] at hin'
              exact hin'
          have hzallb : z ∈ allPos b :=
            mem_allPos.mpr ((hinr z).mp (mem_allPos.mp hz))
          have hlibb := hnd z hzallb (by
            rw [hzb]
            intro hcon
            cases hcon)
          obtain ⟨l, hl⟩ := Finset.nonempty_iff_ne_empty.mpr hlibb
          obtain ⟨hl1, hl2, t, ht, hadj⟩ :=
            (getGroup_liberties_iff hsq hzb l).mp hl
          have hfor : ∀ q : Point, cellAt b q.x q.y = some p →
              cellAt (resolveCaptures (setCell b xn yn (some p)) xn yn
                p.opp).1 q.x q.y = some p := by
            intro q hq
            have hqb1 : cellAt (setCell b xn yn (some p)) q.x q.y =
                some p := by
              rw [cellAt_setCell hsq]
              by_cases hc : xn = q.x ∧ yn = q.y ∧ xn < b.length ∧
                  yn < b.length
              · rw [if_pos hc]
              · rw [if_neg hc]
                exact hq
            have hqS : q ∉ S' := by
              intro hm
              have ho := (hsat.1 _ hm).2
              rw [hqb1] at ho
              injection ho with h2
              exact Player.opp_ne p h2.symm
            have hp0 := hpt q.x q.y
            rw [Point.eta, if_neg hqS] at hp0
            rw [hp0]
            exact hqb1
          have htres : reaches (resolveCaptures (setCell b xn yn (some p))
              xn yn p.opp).1 p z t :=
            reaches_mono hreslen.symm hfor ht
          by_cases hlxy : l = ⟨xn, yn⟩
          · exfalso
            apply hconn
            refine Relation.ReflTransGen.tail htres ⟨?_, ?_, hresxy⟩
            · rw [← hlxy]
              exact hadj
            · rw [inRange, hreslen]
              exact ⟨hx, hy⟩
          · have hlres : cellAt (resolveCaptures (setCell b xn yn (some p))
                xn yn p.opp).1 l.x l.y = none := by
              have hp0 := hpt l.x l.y
              rw [Point.eta] at hp0
              by_cases hlS : l ∈ S'
              · rw [if_pos hlS] at hp0
                exact hp0
              · rw [if_neg hlS] at hp0
                rw [hp0, cellAt_setCell hsq, if_neg (by
                  rintro ⟨h1, h2, -, -⟩
                  exact hlxy (by rw [← Point.eta l, ← h1, ← h2]))]
                exact hl2
            exact ⟨l, (hinr l).mpr hl1, hlres, t, htres, hadj⟩
      · subst hdp
        have hzin1 : inRange (setCell b xn yn (some p)) z :=
          (hinr1 z).mpr ((hinr z).mp (mem_allPos.mp hz))
        have hlib2 := hasLib_clear_iff hlen2 hpt hsat hzb1 hzin1 hzS
        apply hlib2.mpr
        by_cases hnbr : ∃ n ∈ getNeighbors (setCell b xn yn (some p))
            xn yn, cellAt (setCell b xn yn (some p)) n.x n.y = some p.opp ∧
            reaches (setCell b xn yn (some p)) p.opp n z
        · obtain ⟨n, hn, hcn, hrz⟩ := hnbr
          have hlibn : HasLib (setCell b xn yn (some p)) p.opp n := by
            by_contra hno
            exact hzS ((hchar z).mpr ⟨n, hn, hcn, hno, hrz⟩)
          obtain ⟨l, hl1, hl2, t, ht, hadj⟩ := hlibn
          have hnin1 : inRange (setCell b xn yn (some p)) n :=
            (mem_getNeighbors.mp hn).2
          have hrzn : reaches (setCell b xn yn (some p)) p.opp z n :=
            reaches_symm hcn hnin1 hrz
          exact ⟨l, hl1, hl2, t, Relation.ReflTransGen.trans hrzn ht, hadj⟩
        · have hcellob : ∀ q : Point, cellAt b q.x q.y = some p.opp ↔
              cellAt (setCell b xn yn (some p)) q.x q.y = some p.opp := by
            intro q
            rw [cellAt_setCell hsq]
            by_cases hc : xn = q.x ∧ yn = q.y ∧ xn < b.length ∧
                yn < b.length
            · rw [if_pos hc]
              constructor
              · intro hq
                obtain ⟨h1, h2, -, -⟩ := hc
                rw [← h1, ← h2] at hq
                rw [hemp] at hq
                cases hq
              · intro hq
                injection hq with h2
                exact absurd h2.symm (Player.opp_ne p)
            · rw [if_neg hc]
          have hmono1 : ∀ t : Point, reaches b p.opp z t →
              reaches (setCell b xn yn (some p)) p.opp z t :=
            fun t ht => reaches_mono (setCell_length b xn yn (some p)).symm
              (fun q hq => (hcellob q).mp hq) ht
          have hzb : cellAt b z.x z.y = some p.opp := (hcellob z).mpr hzb1
          have hzallb : z ∈ allPos b :=
            mem_allPos.mpr ((hinr z).mp (mem_allPos.mp hz))
          have hlibb := hnd z hzallb (by
            rw [hzb]
            intro hcon
            cases hcon)
          obtain ⟨l, hl⟩ := Finset.nonempty_iff_ne_empty.mpr hlibb
          obtain ⟨hl1, hl2, t, ht, hadj⟩ :=
            (getGroup_liberties_iff hsq hzb l).mp hl
          by_cases hlxy : l = ⟨xn, yn⟩
          · exfalso
            apply hnbr
            have htb1 : reaches (setCell b xn yn (some p)) p.opp z t :=
              hmono1 t ht
            have htcell : cellAt (setCell b xn yn (some p)) t.x t.y =
                some p.opp := reaches_cell hzb1 htb1
            have htin : inRange (setCell b xn yn (some p)) t :=
              reaches_inRange hzin1 htb1
            refine ⟨t, mem_getNeighbors.mpr ⟨?_, htin⟩, htcell,
              reaches_symm hzb1 hzin1 htb1⟩
            have hta : Adj t (⟨xn, yn⟩ : Point) := by
              rw [← hlxy]
              exact hadj
            exact hta.symm
          · have hlb1 : cellAt (setCell b xn yn (some p)) l.x l.y =
                none := by
              rw [cellAt_setCell hsq, if_neg (by
                rintro ⟨h1, h2, -, -⟩
                exact hlxy (by rw [← Point.eta l, ← h1, ← h2]))]
              exact hl2
            exact ⟨l, (hinr1 l).mpr hl1, hlb1, t, hmono1 t ht, hadj⟩

/-- Witness for the amended C3: black captures at (1,0) on a legal 2×2
board; the result has no zero-liberty group. -/
theorem attemptMove_no_dead_groups_witness :
    IsSquare [[some Player.white, none], [some Player.black, none]] ∧
    NoDeadGroups [[some Player.white, none], [some Player.black, none]] ∧
    attemptMove [[some Player.white, none], [some Player.black, none]] 1 0
      Player.black = Except.ok
      { valid := true,
        newBoard :=
          some [[none, some Player.black], [some Player.black, none]],
        capturedCount := some 1, message := none } ∧
    NoDeadGroups [[none, some Player.black], [some Player.black, none]] :=
  ⟨by decide, by decide, rfl,
    attemptMove_no_dead_groups
      [[some Player.white, none], [some Player.black, none]] 1 0
      Player.black
      { valid := true,
        newBoard :=
          some [[none, some Player.black], [some Player.black, none]],
        capturedCount := some 1, message := none }
      [[none, some Player.black], [some Player.black, none]]
      (by decide) (by decide) rfl rfl rfl⟩

/-- Witness for the amended C4 at an occupied 1×1 board. -/
theorem attemptMove_rejection_cases_witness :
    IsSquare [[some Player.black]] ∧
    (0 < ([[some Player.black]] : BoardState).length) ∧
    RejectionClaim [[some Player.black]] 0 0 Player.white :=
  ⟨by decide, by decide,
    attemptMove_rejection_cases _ 0 0 Player.white (by decide) (by decide)
      (by decide)⟩

/-- C7: for every board, dead-stone set with in-bounds keys, capture
counters and komi, `calculateFinalScore` returns black total = black
territory + captures.black + (dead stones that are white on the input
board), white total = white territory + captures.white + (dead stones that
are black on the input board) + komi, and the per-colour `captures` fields
equal those same capture-plus-dead sums. -/
theorem score_totals (board : BoardState) (deadStones : Finset Point)
    (captures : Captures) (komi : ℚ)
    (hkeys : ∀ q ∈ deadStones, inRange board q) :
    ScoreTotalsClaim board deadStones captures komi := by
  have hb : (deadFold board (deadListOf deadStones)).1 =
      (deadStones.filter
        (fun q => cellAt board q.x q.y = some Player.black)).card := by
    simp only [deadFold]
    rw [(deadFold_counts board (deadListOf deadStones) 0 0 board).1,
      Nat.zero_add]
    exact countP_deadListOf deadStones _
  have hw : (deadFold board (deadListOf deadStones)).2.1 =
      (deadStones.filter
        (fun q => cellAt board q.x q.y = some Player.white)).card := by
    simp only [deadFold]
    rw [(deadFold_counts board (deadListOf deadStones) 0 0 board).2,
      Nat.zero_add]
    exact countP_deadListOf deadStones _
  have hcapB : (calculateFinalScore board deadStones captures komi).black.captures =
      captures.black + (deadFold board (deadListOf deadStones)).2.1 := rfl
  have hcapW : (calculateFinalScore board deadStones captures komi).white.captures =
      captures.white + (deadFold board (deadListOf deadStones)).1 := rfl
  have hterrB : (calculateFinalScore board deadStones captures komi).black.territory =
      (territoryScan (deadFold board (deadListOf deadStones)).2.2).2.1 := rfl
  have hterrW : (calculateFinalScore board deadStones captures komi).white.territory =
      (territoryScan (deadFold board (deadListOf deadStones)).2.2).2.2 := rfl
  have htotB : (calculateFinalScore board deadStones captures komi).black.total =
      (Nat.cast (territoryScan (deadFold board (deadListOf deadStones)).2.2).2.1 : ℚ) +
      (Nat.cast (captures.black + (deadFold board (deadListOf deadStones)).2.1) : ℚ) := rfl
  have htotW : (calculateFinalScore board deadStones captures komi).white.total =
      (Nat.cast (territoryScan (deadFold board (deadListOf deadStones)).2.2).2.2 : ℚ) +
      (Nat.cast (captures.white + (deadFold board (deadListOf deadStones)).1) : ℚ) + komi := rfl
  refine ⟨?_, ?_, ?_, ?_⟩
  · rw [hcapB, hw]
  · rw [hcapW, hb]
  · rw [htotB, hterrB, hw]
    push_cast
    ring
  · rw [htotW, hterrW, hb]
    push_cast
    ring

/-- Witness for C7 on a 2×2 board with a dead white stone at (1,1). -/
theorem score_totals_witness :
    (∀ q ∈ ({⟨1, 1⟩} : Finset Point),
      inRange [[some Player.black, none], [none, some Player.white]] q) ∧
    ScoreTotalsClaim [[some Player.black, none], [none, some Player.white]]
      {⟨1, 1⟩} ⟨2, 1⟩ KOMI :=
  ⟨by decide, score_totals _ _ _ _ (by decide)⟩

/-- C8: `calculateFinalScore` returns winner = black exactly when the
black total is strictly greater than the white total, returns white in
every other case (including an exact tie), and never returns draw. -/
theorem score_winner (board : BoardState) (deadStones : Finset Point)
    (captures : Captures) (komi : ℚ) :
    ((calculateFinalScore board deadStones captures komi).winner =
        Winner.black ↔
      (calculateFinalScore board deadStones captures komi).white.total <
      (calculateFinalScore board deadStones captures komi).black.total) ∧
    ((calculateFinalScore board deadStones captures komi).winner ≠
        Winner.black →
      (calculateFinalScore board deadStones captures komi).winner =
        Winner.white) ∧
    (calculateFinalScore board deadStones captures komi).winner ≠
      Winner.draw := by
  refine winner_ite _ _ _ ?_
  simp only [calculateFinalScore]

open Classical in
/-- C6: in `calculateFinalScore`, every empty point of the scoring view
(the board with dead stones removed) is classified by its maximal
4-connected empty region into exactly one of black territory, white
territory, or neutral; the black and white territory counters count
exactly the empty points whose region borders only that colour, so a
one-colour region contributes its full point count and a region bordering
both colours or no stones contributes to neither total. -/
theorem territory_partition (board : BoardState) (deadStones : Finset Point)
    (captures : Captures) (komi : ℚ) (hsq : IsSquare board)
    (hkeys : ∀ q ∈ deadStones, inRange board q) :
    TerritoryClaim board deadStones captures komi := by
  have hsq' : IsSquare (scoreBoardOf board deadStones) :=
    scoreBoardOf_isSquare board deadStones hsq
  obtain ⟨t1, t2⟩ := territoryScan_spec (scoreBoardOf board deadStones) hsq'
  have hBfield : (calculateFinalScore board deadStones captures
      komi).black.territory =
      (territoryScan (scoreBoardOf board deadStones)).2.1 := rfl
  have hWfield : (calculateFinalScore board deadStones captures
      komi).white.territory =
      (territoryScan (scoreBoardOf board deadStones)).2.2 := rfl
  refine ⟨?_, ?_, ?_, ?_⟩
  · rw [hBfield, t1]
    have hset : {p : Point | inRange (scoreBoardOf board deadStones) p ∧
        cellAt (scoreBoardOf board deadStones) p.x p.y = none ∧
        BlackRegion (scoreBoardOf board deadStones) p} =
        (((allPos (scoreBoardOf board deadStones)).filter
          (fun q => cellAt (scoreBoardOf board deadStones) q.x q.y = none ∧
            BlackRegion (scoreBoardOf board deadStones) q) : Finset Point) :
          Set Point) := by
      ext q
      constructor
      · rintro ⟨h1, h2, h3⟩
        exact Finset.mem_coe.mpr
          (Finset.mem_filter.mpr ⟨mem_allPos.mpr h1, h2, h3⟩)
      · intro hq
        obtain ⟨hq1, hq2, hq3⟩ := Finset.mem_filter.mp (Finset.mem_coe.mp hq)
        exact ⟨mem_allPos.mp hq1, hq2, hq3⟩
    rw [hset, Set.ncard_coe_Finset]
  · rw [hWfield, t2]
    have hset : {p : Point | inRange (scoreBoardOf board deadStones) p ∧
        cellAt (scoreBoardOf board deadStones) p.x p.y = none ∧
        WhiteRegion (scoreBoardOf board deadStones) p} =
        (((allPos (scoreBoardOf board deadStones)).filter
          (fun q => cellAt (scoreBoardOf board deadStones) q.x q.y = none ∧
            WhiteRegion (scoreBoardOf board deadStones) q) : Finset Point) :
          Set Point) := by
      ext q
      constructor
      · rintro ⟨h1, h2, h3⟩
        exact Finset.mem_coe.mpr
          (Finset.mem_filter.mpr ⟨mem_allPos.mpr h1, h2, h3⟩)
      · intro hq
        obtain ⟨hq1, hq2, hq3⟩ := Finset.mem_filter.mp (Finset.mem_coe.mp hq)
        exact ⟨mem_allPos.mp hq1, hq2, hq3⟩
    rw [hset, Set.ncard_coe_Finset]
  · intro p
    unfold BlackRegion WhiteRegion NeutralRegion
    tauto
  · intro p q hp hpe hr c
    exact (touches_congr hp hpe hr c).symm

/-- Witness for C6 on a 2×2 board with one black stone and an empty dead
set. -/
theorem territory_partition_witness :
    IsSquare [[some Player.black, none], [none, none]] ∧
    (∀ q ∈ (∅ : Finset Point),
      inRange [[some Player.black, none], [none, none]] q) ∧
    TerritoryClaim [[some Player.black, none], [none, none]] ∅ ⟨0, 0⟩ KOMI :=
  ⟨by decide, by decide, territory_partition _ _ _ _ (by decide) (by decide)⟩

end QiToGo
